import Mathlib

/-!
Verification development for the worldmap onboarding wizard and map/pin
synchronization logic.

JavaScript strings are modelled as lists of UTF-16 code units (`List Nat`):
the source manipulates strings only through `trim`, `toLowerCase`, the ASCII
regex `[^a-z0-9]+`, hyphen trimming and `slice`, all of which act on code
units.  Relevant code points: 45 `-`, 32 space, 48-57 digits, 65-90 `A-Z`,
97-122 `a-z`.
-/

namespace WorldMap

/-- Code units treated as whitespace by JavaScript `String.prototype.trim`
(ASCII part; the inputs of interest are ASCII). -/
def isWsCode (c : Nat) : Bool :=
  c = 32 || c = 9 || c = 10 || c = 11 || c = 12 || c = 13

/-- JS `s.trim()`: drop whitespace from both ends. -/
def trimString (s : List Nat) : List Nat :=
  ((s.dropWhile isWsCode).reverse.dropWhile isWsCode).reverse

/-- JS `toLowerCase` restricted to the ASCII range, as the slug pipeline uses it. -/
def lowerCode (c : Nat) : Nat :=
  if 65 ≤ c && c ≤ 90 then c + 32 else c

/-- Characters matched by the regex class `[a-z0-9]` in `normalizeSlug`. -/
def isSlugCode (c : Nat) : Bool :=
  (97 ≤ c && c ≤ 122) || (48 ≤ c && c ≤ 57)

/-- Scanner for `replace(/[^a-z0-9]+/g, "-")`.  The flag records whether the
scanner is inside a run of non-alphanumeric characters whose replacement
hyphen has already been emitted, so each maximal run yields one hyphen. -/
def collapseAux : Bool → List Nat → List Nat
  | _, [] => []
  | inRun, c :: rest =>
    if isSlugCode c then c :: collapseAux false rest
    else if inRun then collapseAux true rest
    else 45 :: collapseAux true rest

/-- JS `replace(/[^a-z0-9]+/g, "-")`: every maximal run of characters outside
`[a-z0-9]` becomes a single hyphen (code 45). -/
def collapseRuns (s : List Nat) : List Nat :=
  collapseAux false s

/-- JS `replace(/(^-+)|(-+$)/g, "")`: strip leading and trailing hyphen runs. -/
def trimHyphens (s : List Nat) : List Nat :=
  ((s.dropWhile (fun c => c = 45)).reverse.dropWhile (fun c => c = 45)).reverse

/-- The slug normalization of `app/signup/page.tsx` (`normalizeSlug`) and
`lib/auth.ts` (`slugify`): trim, lowercase, collapse non-alphanumeric runs to
one hyphen, strip boundary hyphens, truncate to 60 characters. -/
def normalizeSlug (s : List Nat) : List Nat :=
  (trimHyphens (collapseRuns ((trimString s).map lowerCode))).take 60

/-- The input refuting idempotence of `normalizeSlug`: 59 copies of `a`
followed by `-b`.  Its normalization is 61 characters long before the
60-character truncation, and the truncation cuts exactly at the hyphen. -/
def slugCexInput : List Nat := List.replicate 59 97 ++ [45, 98]

/-- Characters that can appear in the output of the slug pipeline before
truncation: alphanumerics and the hyphen. -/
def isSlugOrHyphen (c : Nat) : Bool :=
  isSlugCode c || c = 45

/-- No two adjacent hyphens occur in the list. -/
def NoAdjHyphens (l : List Nat) : Prop :=
  List.Chain' (fun a b => ¬(a = 45 ∧ b = 45)) l

/-- The slug-availability states of the signup page
(`useState<"idle" | "checking" | "available" | "taken" | "invalid">`). -/
inductive SlugStatus
  | idle
  | checking
  | available
  | taken
  | invalid
deriving DecidableEq, Repr

/-- Outcome of the `profiles` existence query issued by `checkSlug`:
either the query failed, or it succeeded and reports whether a row with the
normalized slug exists (`data.length > 0`). -/
inductive QueryOutcome
  | qError
  | qRows (hasRow : Bool)
deriving DecidableEq, Repr

/-- Status written by `checkSlug` once its query resolves
(`error → available` fail-open, row found → `taken`, none → `available`). -/
def resolvedStatus : QueryOutcome → SlugStatus
  | .qError => .available
  | .qRows true => .taken
  | .qRows false => .available

/-- Final status of a `checkSlug` run that is never cancelled, following the
handler's control flow: trim-empty input short-circuits to `idle`, an
under-length normalization to `invalid`, otherwise the query result decides. -/
def checkSlugFinal (raw : List Nat) (q : QueryOutcome) : SlugStatus :=
  if trimString raw = [] then .idle
  else if normalizeSlug raw = [] ∨ (normalizeSlug raw).length < 3 then .invalid
  else resolvedStatus q

/-- The full sequence of `setSlugStatus` writes of an uncancelled `checkSlug`
run (the guard branches write once; otherwise `checking` is written before the
query and the resolved status after). -/
def checkSlugEmissions (raw : List Nat) (q : QueryOutcome) : List SlugStatus :=
  if trimString raw = [] then [.idle]
  else if normalizeSlug raw = [] ∨ (normalizeSlug raw).length < 3 then [.invalid]
  else [.checking, resolvedStatus q]

/-- Modelled from the spec: the claim's classification table read literally,
with "empty input" as the empty string (not empty-after-trim) and the
`invalid` rule keyed on normalized length alone. -/
def claimSlugTable (raw : List Nat) (q : QueryOutcome) : SlugStatus :=
  if raw = [] then .idle
  else if (normalizeSlug raw).length < 3 then .invalid
  else resolvedStatus q

/-- Modelled from the spec: the classification table amended so that the
`idle` rule fires exactly when the input is empty after trimming, matching
the handler's first guard. -/
def specSlugTableAmended (raw : List Nat) (q : QueryOutcome) : SlugStatus :=
  if trimString raw = [] then .idle
  else if (normalizeSlug raw).length < 3 then .invalid
  else resolvedStatus q

/-- One `checkSlug` effect run: the slug text it captured and the outcome its
query would report. -/
structure CheckRun where
  raw : List Nat
  outcome : QueryOutcome

/-- Whether a `checkSlug` run reaches its awaits (neither early return). -/
def passesGuards (raw : List Nat) : Bool :=
  !(decide (trimString raw = [])) &&
    !(decide (normalizeSlug raw = [] ∨ (normalizeSlug raw).length < 3))

/-- The status a `checkSlug` run writes synchronously when it starts. -/
def issueStatus (raw : List Nat) : SlugStatus :=
  if trimString raw = [] then .idle
  else if normalizeSlug raw = [] ∨ (normalizeSlug raw).length < 3 then .invalid
  else .checking

/-- Interleaving state for the debounced slug-check effect: the currently
displayed status, the runs whose cleanup (`cancelled = true`) has executed,
and the most recently issued run (whose cleanup is still pending). -/
structure SlugSimState where
  displayed : SlugStatus
  cancelledRuns : List Nat
  currentRun : Option Nat

/-- Events of the slug-check interleaving: a new effect run being issued
(which first runs the previous run's cleanup), or a pending run's query
resolving. -/
inductive CheckEvent
  | issue (k : Nat)
  | resolve (k : Nat)

/-- Operational step: issuing run `k` cancels the previous current run and
writes the run's synchronous status; a resolving run writes its query result
only if it reached the await and its `cancelled` flag is still unset. -/
def slugSimStep (runs : Nat → CheckRun) (s : SlugSimState) : CheckEvent → SlugSimState
  | .issue k =>
    { displayed := issueStatus (runs k).raw
      cancelledRuns :=
        match s.currentRun with
        | some j => j :: s.cancelledRuns
        | none => s.cancelledRuns
      currentRun := some k }
  | .resolve k =>
    if passesGuards (runs k).raw && !(s.cancelledRuns.contains k) then
      { s with displayed := resolvedStatus (runs k).outcome }
    else s

/-- Initial slug-check state (`useState("idle")`, nothing issued). -/
def slugSimInit : SlugSimState :=
  { displayed := .idle, cancelledRuns := [], currentRun := none }

/-- Run a sequence of slug-check events from the initial state. -/
def slugSimRun (runs : Nat → CheckRun) (events : List CheckEvent) : SlugSimState :=
  events.foldl (slugSimStep runs) slugSimInit

/-- Concrete pair of slug-check runs for instantiating the staleness result:
run 0 captured `abc` (query would find a row), run 1 captured `abd` (query
would find none). -/
def staleRuns : Nat → CheckRun := fun k =>
  if k = 0 then { raw := [97, 98, 99], outcome := .qRows true }
  else { raw := [97, 98, 100], outcome := .qRows false }

/-- State of the onboarding wizard consulted by the step handlers: the current
step, the auth user id obtained in step 1, the form fields used by the
transition guards, and a history flag recording that some profile upsert
returned without error. -/
structure WizardState where
  step : Nat
  uid : Option Nat
  email : List Nat
  password : List Nat
  fullName : List Nat
  shareSlug : List Nat
  slugStatus : SlugStatus
  homeCity : List Nat
  profileSaved : Bool
deriving DecidableEq

/-- The `canGoNext` guard of the signup page: step 1 needs email and password;
step 2 needs a session uid, a nonempty trimmed full name, a normalized slug of
length at least 3, a slug status that is neither `taken` nor `checking`, and a
nonempty trimmed home city. -/
def canGoNext (s : WizardState) : Bool :=
  if s.step = 1 then !s.email.isEmpty && !s.password.isEmpty
  else if s.step = 2 then
    s.uid.isSome && !(trimString s.fullName).isEmpty &&
      !(normalizeSlug s.shareSlug).isEmpty &&
      !(decide ((normalizeSlug s.shareSlug).length < 3)) &&
      !(decide (s.slugStatus = .taken)) && !(decide (s.slugStatus = .checking)) &&
      !(trimString s.homeCity).isEmpty
  else true

/-- Transitions of the carousel revision of the signup wizard
(`app/signup/page.tsx`): field edits; `handleCreateAccount` succeeding (stores
the uid, advances to step 2) or failing (state unchanged, error shown);
`handleSaveProfileAndNext` succeeding (advances to step 3, records the
successful profile write) or failing; the Back button, which decrements the
step whenever the step is not 1; and a step-3 submission attempt. -/
inductive WizStepA : WizardState → WizardState → Prop
  | edit (s : WizardState) (email password fullName shareSlug homeCity : List Nat)
      (st : SlugStatus) :
      WizStepA s { s with
                   email := email, password := password, fullName := fullName,
                   shareSlug := shareSlug, homeCity := homeCity, slugStatus := st }
  | createAccountOk (s : WizardState) (u : Nat) :
      s.step = 1 → canGoNext s = true →
      WizStepA s { s with uid := some u, step := 2 }
  | createAccountFail (s : WizardState) :
      s.step = 1 → canGoNext s = true → WizStepA s s
  | saveProfileOk (s : WizardState) :
      s.step = 2 → s.uid.isSome = true → canGoNext s = true →
      WizStepA s { s with step := 3, profileSaved := true }
  | saveProfileFail (s : WizardState) :
      s.step = 2 → WizStepA s s
  | back (s : WizardState) :
      s.step ≠ 1 → WizStepA s { s with step := s.step - 1 }
  | finishAttempt (s : WizardState) :
      s.step = 3 → WizStepA s s

/-- Transitions of the collapsible-cards revision (`part_000`): identical
handlers, but Back goes through `handleBack` and `canGoBackToPrevStep`, which
allow 3 to 2 always and 2 to 1 only while no account has been created. -/
inductive WizStepB : WizardState → WizardState → Prop
  | edit (s : WizardState) (email password fullName shareSlug homeCity : List Nat)
      (st : SlugStatus) :
      WizStepB s { s with
                   email := email, password := password, fullName := fullName,
                   shareSlug := shareSlug, homeCity := homeCity, slugStatus := st }
  | createAccountOk (s : WizardState) (u : Nat) :
      s.step = 1 → canGoNext s = true →
      WizStepB s { s with uid := some u, step := 2 }
  | createAccountFail (s : WizardState) :
      s.step = 1 → canGoNext s = true → WizStepB s s
  | saveProfileOk (s : WizardState) :
      s.step = 2 → s.uid.isSome = true → canGoNext s = true →
      WizStepB s { s with step := 3, profileSaved := true }
  | saveProfileFail (s : WizardState) :
      s.step = 2 → WizStepB s s
  | backFrom3 (s : WizardState) :
      s.step = 3 → WizStepB s { s with step := 2 }
  | backFrom2 (s : WizardState) :
      s.step = 2 → s.uid = none → WizStepB s { s with step := 1 }
  | finishAttempt (s : WizardState) :
      s.step = 3 → WizStepB s s

/-- Wizard state at mount: step 1, no session, empty fields. -/
def wizardInit : WizardState :=
  { step := 1, uid := none, email := [], password := [], fullName := [],
    shareSlug := [], slugStatus := .idle, homeCity := [], profileSaved := false }

/-- States the carousel-revision wizard can reach from mount. -/
def ReachableA (s : WizardState) : Prop :=
  Relation.ReflTransGen WizStepA wizardInit s

/-- Concrete wizard state with all step-1 and step-2 fields filled in. -/
def wizEditState : WizardState :=
  { wizardInit with
    email := [97], password := [98], fullName := [99],
    shareSlug := [97, 98, 99], homeCity := [100], slugStatus := .available }

/-- Concrete wizard state just after a successful account creation. -/
def wizStep2State : WizardState :=
  { wizEditState with uid := some 7, step := 2 }

/-- Concrete wizard state just after a successful profile save. -/
def wizStep3State : WizardState :=
  { wizStep2State with step := 3, profileSaved := true }

/-- `MAX_MEMORIES` of the carousel revision of the signup page. -/
def MAX_MEMORIES : Nat := 10

/-- The step-3 draft-list state: the drafts (represented by their stable
client-generated keys), the active card index, and the supply of fresh keys
(modelling `crypto.randomUUID()`, which never repeats). -/
structure DraftListState where
  drafts : List Nat
  activeIdx : Int
  nextKey : Nat
deriving DecidableEq

/-- Initial draft list: one blank draft, active index 0. -/
def draftInit : DraftListState :=
  { drafts := [0], activeIdx := 0, nextKey := 1 }

/-- `addMemory`: append a fresh draft unless the list is full; the active
index always moves to `min (activeIdx + 1) (MAX_MEMORIES - 1)`. -/
def addMemoryOp (s : DraftListState) : DraftListState :=
  { drafts :=
      if MAX_MEMORIES ≤ s.drafts.length then s.drafts
      else s.drafts ++ [s.nextKey]
    activeIdx := min (s.activeIdx + 1) ((MAX_MEMORIES : Int) - 1)
    nextKey := s.nextKey + 1 }

/-- The `setActiveIdx` updater inside `removeMemory`, with `idx` the
`findIndex` result (−1 when absent) and `nextLen` the filtered length. -/
def removeIdxUpdate (idx cur nextLen : Int) : Int :=
  if nextLen - 1 < cur then nextLen - 1
  else if 0 ≤ idx ∧ idx < cur then max 0 (cur - 1)
  else if idx = cur then min cur (nextLen - 1)
  else cur

/-- `removeMemory`: a no-op while one draft remains, otherwise drop the draft
with the given key and reclamp the active index. -/
def removeMemoryOp (key : Nat) (s : DraftListState) : DraftListState :=
  if s.drafts.length ≤ 1 then s
  else
    { s with
      drafts := s.drafts.filter (fun k => k ≠ key)
      activeIdx :=
        removeIdxUpdate
          (match s.drafts.findIdx? (fun k => k = key) with
           | some i => (i : Int)
           | none => -1)
          s.activeIdx
          ((s.drafts.filter (fun k => k ≠ key)).length : Int) }

/-- `goToIdx`: clamp the requested index into `[0, drafts.length − 1]`. -/
def goToIdxOp (n : Int) (s : DraftListState) : DraftListState :=
  { s with activeIdx := max 0 (min n ((s.drafts.length : Int) - 1)) }

/-- The draft-list operations of the claim. -/
inductive DraftOp
  | add
  | remove (key : Nat)
  | goTo (n : Int)

/-- Apply one draft-list operation. -/
def applyDraftOp (s : DraftListState) : DraftOp → DraftListState
  | .add => addMemoryOp s
  | .remove key => removeMemoryOp key s
  | .goTo n => goToIdxOp n s

/-- Run a sequence of draft-list operations from the initial single draft. -/
def runDraftOps (ops : List DraftOp) : DraftListState :=
  ops.foldl applyDraftOp draftInit

/-- Invariant of the draft-list state: between 1 and `MAX_MEMORIES` drafts,
active index inside the list, keys distinct and below the fresh-key supply. -/
def DraftInv (s : DraftListState) : Prop :=
  1 ≤ s.drafts.length ∧ s.drafts.length ≤ MAX_MEMORIES ∧
    0 ≤ s.activeIdx ∧ s.activeIdx ≤ (s.drafts.length : Int) - 1 ∧
    s.drafts.Nodup ∧ ∀ k ∈ s.drafts, k < s.nextKey

/-- Backend operations issued by one draft's write chain in `handleFinish`:
the `places` lookup and insert of `ensurePlace`, the `user_places` upsert, the
`memories` insert, the storage upload, and the `memory_media` insert. -/
inductive FinishOp
  | placeSelect
  | placeInsert
  | pinUpsert
  | memoryInsert
  | photoUpload
  | mediaInsert
deriving DecidableEq, Repr

/-- Result of the `places` lookup inside `ensurePlace`: a row was found, no
row matched, or the query itself failed. -/
inductive FindResult
  | found
  | notFound
  | ferr
deriving DecidableEq, Repr

/-- Result of a single insert/upsert/upload call. -/
inductive CallResult
  | ok
  | err
deriving DecidableEq, Repr

/-- Whether a call succeeded. -/
def CallResult.isOk : CallResult → Bool
  | .ok => true
  | .err => false

/-- The backend responses one draft's write chain would consume. -/
structure DraftOutcomes where
  findPlace : FindResult
  insertPlace : CallResult
  pin : CallResult
  memory : CallResult
  upload : CallResult
  media : CallResult
deriving DecidableEq, Repr

/-- `ensurePlace`: query the place by normalized key, reuse its id when found,
insert it otherwise.  Returns the issued operations and whether the chain may
continue (a thrown error stops it). -/
def runEnsurePlace (o : DraftOutcomes) : List FinishOp × Bool :=
  match o.findPlace with
  | .ferr => ([.placeSelect], false)
  | .found => ([.placeSelect], true)
  | .notFound =>
    match o.insertPlace with
    | .err => ([.placeSelect, .placeInsert], false)
    | .ok => ([.placeSelect, .placeInsert], true)

/-- Sequence one chain call: issue the operation only while the chain is
alive, and keep the chain alive only if the call succeeds. -/
def chainStep (r : List FinishOp × Bool) (op : FinishOp) (res : CallResult) :
    List FinishOp × Bool :=
  if r.2 then (r.1 ++ [op], res.isOk) else r

/-- One draft's full write chain (the `handleFinish` loop body): place
resolve-or-create, then pin upsert, then memory insert, then photo upload,
then media insert, stopping at the first failing call. -/
def runChain (o : DraftOutcomes) : List FinishOp × Bool :=
  chainStep
    (chainStep (chainStep (chainStep (runEnsurePlace o) .pinUpsert o.pin)
      .memoryInsert o.memory) .photoUpload o.upload)
    .mediaInsert o.media

/-- The operations a draft's chain issues. -/
def chainOps (o : DraftOutcomes) : List FinishOp :=
  (runChain o).1

/-- Whether a draft's chain completes without error. -/
def chainOk (o : DraftOutcomes) : Bool :=
  (runChain o).2

/-- The complete chain the spec describes for a draft: place resolve (plus the
insert when no place row existed), pin upsert, memory insert, photo upload,
media insert. -/
def fullChainOps (o : DraftOutcomes) : List FinishOp :=
  [.placeSelect] ++
    (match o.findPlace with
     | .notFound => [.placeInsert]
     | _ => []) ++
    [.pinUpsert, .memoryInsert, .photoUpload, .mediaInsert]

/-- Memory-draft fields consulted by the completion guard `canFinish`:
the location and whether exactly one photo is attached. -/
structure FinishDraft where
  city : List Nat
  region : List Nat
  hasFile : Bool
deriving DecidableEq, Repr

/-- Validity of one draft under `canFinish`: nonempty trimmed city and region
and an attached photo. -/
def draftValid (m : FinishDraft) : Bool :=
  !(trimString m.city).isEmpty && !(trimString m.region).isEmpty && m.hasFile

/-- The `canFinish` guard: a session uid, between 1 and `MAX_MEMORIES` drafts,
and every draft valid. -/
def canFinish (uid : Option Nat) (ms : List FinishDraft) : Bool :=
  uid.isSome && decide (1 ≤ ms.length) && decide (ms.length ≤ MAX_MEMORIES) &&
    ms.all draftValid

/-- The sequential loop of `handleFinish` from draft index `i`: run each
draft's chain in list order, tagging issued operations with the draft index;
a thrown error aborts the remaining drafts. -/
def runDraftsFrom (i : Nat) : List DraftOutcomes → List (Nat × FinishOp) × Bool
  | [] => ([], true)
  | o :: rest =>
    if (runChain o).2 then
      ((runChain o).1.map (fun op => (i, op)) ++ (runDraftsFrom (i + 1) rest).1,
        (runDraftsFrom (i + 1) rest).2)
    else ((runChain o).1.map (fun op => (i, op)), false)

/-- `handleFinish` of the carousel revision: the uid and `canFinish` guards
issue nothing and surface an error; otherwise the drafts are written
sequentially in list order.  The boolean records overall success (`false`
means the caught error was surfaced). -/
def handleFinish (uid : Option Nat) (ms : List FinishDraft)
    (outs : List DraftOutcomes) : List (Nat × FinishOp) × Bool :=
  if uid.isNone then ([], false)
  else if !(canFinish uid ms) then ([], false)
  else runDraftsFrom 0 outs

/-- Modelled from the spec: the trace the claim describes, the complete chains
of the drafts concatenated in list order under increasing draft tags. -/
def taggedChains (i : Nat) : List DraftOutcomes → List (Nat × FinishOp)
  | [] => []
  | o :: rest =>
    (fullChainOps o).map (fun op => (i, op)) ++ taggedChains (i + 1) rest

/-- A `memory_media` row: the memory it belongs to and its storage path. -/
structure MediaRow where
  memId : Nat
  path : List Nat
deriving DecidableEq, Repr

/-- A `memories` row as `deleteMemory` uses it. -/
structure MemoryRow where
  id : Nat
  userId : Nat
  placeId : Nat
deriving DecidableEq, Repr

/-- A `user_places` (pin) row. -/
structure PinRow where
  userId : Nat
  placeId : Nat
deriving DecidableEq, Repr

/-- The backend tables and the storage bucket that `deleteMemory` touches. -/
structure Database where
  media : List MediaRow
  storage : List (List Nat)
  memories : List MemoryRow
  userPlaces : List PinRow
deriving DecidableEq, Repr

/-- The destructive backend calls `deleteMemory` issues, in order. -/
inductive DeleteOp
  | removeBlobs (paths : List (List Nat))
  | deleteMediaRows (memId : Nat)
  | deleteMemoryRow (memId : Nat) (userId : Nat)
  | deletePinRow (userId : Nat) (placeId : Nat)
deriving DecidableEq, Repr

/-- The `memories` count query for a user and place (`head: true,
count: exact` in `refreshPins` and `deleteMemory`). -/
def memCount (db : Database) (userId placeId : Nat) : Nat :=
  (db.memories.filter
    (fun m => decide (m.userId = userId ∧ m.placeId = placeId))).length

/-- The storage paths of a memory's media rows, keeping only nonempty string
paths, as `deleteMemory` collects them. -/
def mediaPathsOf (db : Database) (memoryId : Nat) : List (List Nat) :=
  ((db.media.filter (fun r => decide (r.memId = memoryId))).map
    MediaRow.path).filter (fun p => !p.isEmpty)

/-- `deleteMemory` of `part_001`: remove the memory's media blobs from storage
(skipping the call when there are none), delete its `memory_media` rows,
delete the memory row (scoped to the profile owner), then, when a place id
was supplied and the user has no memories left there, delete the
`user_places` pin row. -/
def deleteMemory (profileId memoryId : Nat) (placeId? : Option Nat)
    (db : Database) : Database × List DeleteOp :=
  let paths := mediaPathsOf db memoryId
  let db1 :=
    if paths.isEmpty then db
    else { db with storage := db.storage.filter (fun p => decide (p ∉ paths)) }
  let t1 : List DeleteOp :=
    if paths.isEmpty then [] else [.removeBlobs paths]
  let db2 :=
    { db1 with media := db1.media.filter (fun r => decide (¬r.memId = memoryId)) }
  let db3 :=
    { db2 with
      memories :=
        db2.memories.filter
          (fun m => decide (¬(m.id = memoryId ∧ m.userId = profileId))) }
  let t3 := t1 ++ [.deleteMediaRows memoryId, .deleteMemoryRow memoryId profileId]
  match placeId? with
  | none => (db3, t3)
  | some pid =>
    if memCount db3 profileId pid = 0 then
      ({ db3 with
         userPlaces :=
           db3.userPlaces.filter
             (fun r => decide (¬(r.userId = profileId ∧ r.placeId = pid))) },
        t3 ++ [.deletePinRow profileId pid])
    else (db3, t3)

/-- Concrete drafts for instantiating the completion-handler result. -/
def witnessDrafts : List FinishDraft :=
  [{ city := [97], region := [98], hasFile := true },
   { city := [99], region := [100], hasFile := true }]

/-- Outcomes where both chains succeed (the second creating its place row). -/
def witnessOutsOk : List DraftOutcomes :=
  [{ findPlace := .found, insertPlace := .ok, pin := .ok, memory := .ok,
     upload := .ok, media := .ok },
   { findPlace := .notFound, insertPlace := .ok, pin := .ok, memory := .ok,
     upload := .ok, media := .ok }]

/-- Outcomes where the second draft's memory insert fails. -/
def witnessOutsFail : List DraftOutcomes :=
  [{ findPlace := .found, insertPlace := .ok, pin := .ok, memory := .ok,
     upload := .ok, media := .ok },
   { findPlace := .found, insertPlace := .ok, pin := .ok, memory := .err,
     upload := .ok, media := .ok }]

/-- Concrete database for instantiating the delete cascade: one memory with
one media blob at the place, and its pin row. -/
def witnessDb : Database :=
  { media := [{ memId := 5, path := [112] }]
    storage := [[112]]
    memories := [{ id := 5, userId := 1, placeId := 9 }]
    userPlaces := [{ userId := 1, placeId := 9 }] }

/-- A pin as the map component receives it (`MapPin`); ids are the place
identifiers, compared only for equality. -/
structure MapPin where
  id : Nat
  lng : Int
  lat : Int
deriving DecidableEq, Repr

/-- A rendered marker: the identity token of the marker object created by the
rendering engine (fresh per creation, so destroy-and-recreate is observable),
its coordinates, and whether the active styling is applied. -/
structure Marker where
  token : Nat
  lng : Int
  lat : Int
  active : Bool
deriving DecidableEq, Repr

/-- The `markersRef` JS `Map`, keyed by pin id (entries in insertion order,
one entry per key). -/
abbrev MarkerMap := List (Nat × Marker)

/-- JS `Map.get`. -/
def mapGet : MarkerMap → Nat → Option Marker
  | [], _ => none
  | e :: rest, k => if e.1 = k then some e.2 else mapGet rest k

/-- JS `Map.set`: replace the entry in place when the key exists, append
otherwise. -/
def mapSet : MarkerMap → Nat → Marker → MarkerMap
  | [], k, v => [(k, v)]
  | e :: rest, k, v => if e.1 = k then (k, v) :: rest else e :: mapSet rest k v

/-- The add/update pass of the `part_005` marker-sync effect: for each pin in
order, update the existing marker's position and active styling in place, or
create a fresh marker (consuming a token from the counter) and register it. -/
def syncStepPass (activeId : Option Nat) (pins : List MapPin)
    (acc : MarkerMap × Nat) : MarkerMap × Nat :=
  pins.foldl
    (fun acc p =>
      match mapGet acc.1 p.id with
      | some m =>
        (mapSet acc.1 p.id
          { m with
            lng := p.lng, lat := p.lat,
            active := decide (activeId = some p.id) }, acc.2)
      | none =>
        (mapSet acc.1 p.id
          { token := acc.2, lng := p.lng, lat := p.lat,
            active := decide (activeId = some p.id) }, acc.2 + 1))
    acc

/-- The `part_005` marker-sync effect (reconciliation by id): first destroy
every marker whose id is absent from the incoming pin list, then run the
add/update pass. -/
def syncPins (pins : List MapPin) (activeId : Option Nat) (reg : MarkerMap)
    (counter : Nat) : MarkerMap × Nat :=
  syncStepPass activeId pins
    (reg.filter (fun e => decide (e.1 ∈ pins.map MapPin.id)), counter)

/-- The creation loop of the `MapboxMap.tsx` marker effect: create a fresh
marker per pin and register it. -/
def rebuildPass (activeId : Option Nat) (pins : List MapPin)
    (acc : MarkerMap × Nat) : MarkerMap × Nat :=
  pins.foldl
    (fun acc p =>
      (mapSet acc.1 p.id
        { token := acc.2, lng := p.lng, lat := p.lat,
          active := decide (activeId = some p.id) }, acc.2 + 1))
    acc

/-- The `MapboxMap.tsx` marker effect (full rebuild): remove every existing
marker, clear the registry, then create a fresh marker per pin. -/
def rebuildPins (pins : List MapPin) (activeId : Option Nat) (_reg : MarkerMap)
    (counter : Nat) : MarkerMap × Nat :=
  rebuildPass activeId pins ([], counter)

/-- Registered marker ids, in registry order. -/
def markerKeys (r : MarkerMap) : List Nat :=
  r.map Prod.fst

/-- Observable view of a registry: id, position and active styling, without
marker-object identity. -/
def markerView (r : MarkerMap) : List (Nat × Int × Int × Bool) :=
  r.map (fun e => (e.1, e.2.lng, e.2.lat, e.2.active))

/-- Marker-object identity view: which marker object is registered per id. -/
def tokenView (r : MarkerMap) : List (Nat × Nat) :=
  r.map (fun e => (e.1, e.2.token))

/-- `pins.find(p => p.id === activePinId)` of the map component. -/
def activePinOf (pins : List MapPin) (activeId : Option Nat) : Option MapPin :=
  pins.find? (fun p => decide (activeId = some p.id))

/-- The fly-to effect: when enabled and the active pin exists, exactly one
camera move to the active pin's coordinates. -/
def flyEffect (pins : List MapPin) (activeId : Option Nat)
    (flyToActive : Bool) : List (Int × Int) :=
  if flyToActive then
    match activePinOf pins activeId with
    | some p => [(p.lng, p.lat)]
    | none => []
  else []

/-- The last pin in the list carrying the given id (the last `setLngLat`
write wins). -/
def lastOcc : List MapPin → Nat → Option MapPin
  | [], _ => none
  | p :: rest, k =>
    match lastOcc rest k with
    | some q => some q
    | none => if p.id = k then some p else none

/-- Pointwise effect of the add/update pass on an entry that stays
registered: position moved to its pin's last occurrence, active styling
refreshed; entries without a pin are untouched. -/
def syncUpdate (activeId : Option Nat) (pins : List MapPin)
    (e : Nat × Marker) : Nat × Marker :=
  match lastOcc pins e.1 with
  | some p =>
    (e.1,
      { e.2 with
        lng := p.lng, lat := p.lat,
        active := decide (activeId = some p.id) })
  | none => e

/-- Concrete pin list for the marker-sync witnesses. -/
def cexPins : List MapPin :=
  [{ id := 1, lng := 10, lat := 20 }, { id := 2, lng := 30, lat := 40 }]

theorem isSlugCode_iff {c : Nat} :
    isSlugCode c = true ↔ (97 ≤ c ∧ c ≤ 122) ∨ (48 ≤ c ∧ c ≤ 57) := by
  simp [isSlugCode]

theorem isSlugOrHyphen_iff {c : Nat} :
    isSlugOrHyphen c = true ↔ isSlugCode c = true ∨ c = 45 := by
  simp [isSlugOrHyphen]

theorem isSlugCode_ne_hyphen {c : Nat} (h : isSlugCode c = true) : c ≠ 45 := by
  rcases isSlugCode_iff.mp h with h1 | h1 <;> omega

theorem isSlugOrHyphen_not_ws {c : Nat} (h : isSlugOrHyphen c = true) :
    isWsCode c = false := by
  rcases isSlugOrHyphen_iff.mp h with h1 | h1
  · rcases isSlugCode_iff.mp h1 with h2 | h2 <;> simp [isWsCode] <;> omega
  · subst h1; simp [isWsCode]

theorem lowerCode_eq_self {c : Nat} (h : isSlugOrHyphen c = true) :
    lowerCode c = c := by
  rcases isSlugOrHyphen_iff.mp h with h1 | h1
  · rcases isSlugCode_iff.mp h1 with h2 | h2 <;> simp [lowerCode] <;> omega
  · subst h1; simp [lowerCode]

theorem mem_collapseAux {b : Bool} {l : List Nat} {c : Nat}
    (h : c ∈ collapseAux b l) : isSlugOrHyphen c = true := by
  induction l generalizing b with
  | nil => simp [collapseAux] at h
  | cons x rest ih =>
    by_cases hx : isSlugCode x = true
    · simp only [collapseAux, hx, if_pos] at h
      rcases List.mem_cons.mp h with rfl | h
      · exact isSlugOrHyphen_iff.mpr (Or.inl hx)
      · exact ih h
    · cases b with
      | true =>
        simp only [collapseAux, hx, if_neg, Bool.false_eq_true, not_false_iff,
          if_pos] at h
        exact ih h
      | false =>
        simp only [collapseAux, hx, if_neg, Bool.false_eq_true, not_false_iff,
          if_false] at h
        rcases List.mem_cons.mp h with rfl | h
        · simp [isSlugOrHyphen]
        · exact ih h

theorem head_collapseAux_true {l : List Nat} {c : Nat}
    (h : (collapseAux true l).head? = some c) : isSlugCode c = true := by
  induction l with
  | nil => simp [collapseAux] at h
  | cons x rest ih =>
    by_cases hx : isSlugCode x = true
    · simp only [collapseAux, hx, if_pos, List.head?_cons, Option.some_inj] at h
      exact h ▸ hx
    · simp only [collapseAux, hx, if_neg, Bool.false_eq_true, not_false_iff,
        if_pos] at h
      exact ih h

theorem chain_collapseAux (b : Bool) (l : List Nat) :
    NoAdjHyphens (collapseAux b l) := by
  induction l generalizing b with
  | nil => simp [collapseAux, NoAdjHyphens]
  | cons x rest ih =>
    by_cases hx : isSlugCode x = true
    · simp only [collapseAux, hx, if_pos]
      exact List.chain'_cons'.mpr
        ⟨fun y _ hpair => absurd hpair.1 (isSlugCode_ne_hyphen hx), ih false⟩
    · cases b with
      | true =>
        simpa only [collapseAux, hx, if_neg, Bool.false_eq_true, not_false_iff,
          if_pos] using ih true
      | false =>
        simp only [collapseAux, hx, if_neg, Bool.false_eq_true, not_false_iff,
          if_false]
        refine List.chain'_cons'.mpr ⟨fun y hy hpair => ?_, ih true⟩
        exact absurd hpair.2 (isSlugCode_ne_hyphen (head_collapseAux_true hy))

theorem collapseAux_eq_self {l : List Nat}
    (hall : ∀ c ∈ l, isSlugOrHyphen c = true) (hchain : NoAdjHyphens l) :
    collapseAux false l = l ∧
      ((∀ c, l.head? = some c → isSlugCode c = true) → collapseAux true l = l) := by
  induction l with
  | nil => exact ⟨rfl, fun _ => rfl⟩
  | cons x rest ih =>
    have hx : isSlugOrHyphen x = true := hall x (List.mem_cons_self x rest)
    have hrest : ∀ c ∈ rest, isSlugOrHyphen c = true :=
      fun c hc => hall c (List.mem_cons_of_mem x hc)
    have hchain2 := List.chain'_cons'.mp hchain
    have ihr := ih hrest hchain2.2
    rcases isSlugOrHyphen_iff.mp hx with hslug | h45
    · constructor
      · simp only [collapseAux, hslug, if_pos, ihr.1]
      · intro _
        simp only [collapseAux, hslug, if_pos, ihr.1]
    · subst h45
      have hne : isSlugCode 45 = true → False := by simp [isSlugCode]
      have hresthead : ∀ c, rest.head? = some c → isSlugCode c = true := by
        intro c hc
        have hcr : c ∈ rest := List.mem_of_mem_head? hc
        rcases isSlugOrHyphen_iff.mp (hrest c hcr) with h | h
        · exact h
        · exact absurd ⟨rfl, h⟩ (hchain2.1 c hc)
      constructor
      · simp only [collapseAux, if_neg (fun h => hne h), Bool.false_eq_true,
          not_false_iff, if_false, List.cons.injEq, true_and]
        exact ihr.2 hresthead
      · intro hhead
        exact absurd (hhead 45 rfl) hne

theorem dropWhile_eq_self_of_all {p : Nat → Bool} {l : List Nat}
    (h : ∀ c ∈ l, p c = false) : l.dropWhile p = l := by
  cases l with
  | nil => rfl
  | cons x rest =>
    rw [List.dropWhile_cons, if_neg]
    simp [h x (List.mem_cons_self x rest)]

theorem trimString_eq_self {l : List Nat}
    (h : ∀ c ∈ l, isSlugOrHyphen c = true) : trimString l = l := by
  unfold trimString
  rw [dropWhile_eq_self_of_all (fun c hc => isSlugOrHyphen_not_ws (h c hc)),
    dropWhile_eq_self_of_all
      (fun c hc => isSlugOrHyphen_not_ws (h c (List.mem_reverse.mp hc))),
    List.reverse_reverse]

theorem map_lowerCode_eq_self {l : List Nat}
    (h : ∀ c ∈ l, isSlugOrHyphen c = true) : l.map lowerCode = l := by
  induction l with
  | nil => rfl
  | cons x rest ih =>
    simp only [List.map_cons, lowerCode_eq_self (h x (List.mem_cons_self x rest)),
      List.cons.injEq, true_and]
    exact ih (fun c hc => h c (List.mem_cons_of_mem x hc))

theorem mem_trimHyphens {l : List Nat} {c : Nat} (h : c ∈ trimHyphens l) :
    c ∈ l := by
  unfold trimHyphens at h
  have h1 := List.mem_reverse.mp h
  have h2 := (List.dropWhile_sublist _).subset h1
  have h3 := List.mem_reverse.mp h2
  exact (List.dropWhile_sublist _).subset h3

theorem chain_trimHyphens {l : List Nat} (h : NoAdjHyphens l) :
    NoAdjHyphens (trimHyphens l) := by
  unfold NoAdjHyphens trimHyphens
  have h1 : NoAdjHyphens (l.dropWhile (fun c => c = 45)) :=
    h.suffix (List.dropWhile_suffix _)
  have h2 : NoAdjHyphens (l.dropWhile (fun c => c = 45)).reverse := by
    rw [NoAdjHyphens, List.chain'_reverse]
    exact h1.imp (fun a b hab hcon => hab ⟨hcon.2, hcon.1⟩)
  have h3 : NoAdjHyphens ((l.dropWhile (fun c => c = 45)).reverse.dropWhile
      (fun c => c = 45)) :=
    h2.suffix (List.dropWhile_suffix _)
  rw [List.chain'_reverse]
  exact h3.imp (fun a b hab hcon => hab ⟨hcon.2, hcon.1⟩)

theorem length_trimHyphens_le (l : List Nat) :
    (trimHyphens l).length ≤ l.length := by
  unfold trimHyphens
  have h1 : (List.dropWhile (fun c => c = 45) l).length ≤ l.length :=
    (List.dropWhile_sublist _).length_le
  have h2 : (List.dropWhile (fun c => c = 45)
      ((l.dropWhile (fun c => c = 45)).reverse)).length ≤
      ((l.dropWhile (fun c => c = 45)).reverse).length :=
    (List.dropWhile_sublist _).length_le
  simp only [List.length_reverse] at h2 ⊢
  omega

/-- On a list that is already in the image of the slug pipeline (only
alphanumerics and isolated hyphens, at most 60 characters), `normalizeSlug`
only strips boundary hyphens. -/
theorem normalizeSlug_of_normal {t : List Nat}
    (hall : ∀ c ∈ t, isSlugOrHyphen c = true) (hchain : NoAdjHyphens t)
    (hlen : t.length ≤ 60) : normalizeSlug t = trimHyphens t := by
  unfold normalizeSlug collapseRuns
  rw [trimString_eq_self hall, map_lowerCode_eq_self hall,
    (collapseAux_eq_self hall hchain).1,
    List.take_of_length_le (le_trans (length_trimHyphens_le t) hlen)]

theorem normalizeSlug_all {s : List Nat} :
    ∀ c ∈ normalizeSlug s, isSlugOrHyphen c = true := by
  intro c hc
  unfold normalizeSlug at hc
  have h1 := (List.take_sublist _ _).subset hc
  exact mem_collapseAux (mem_trimHyphens h1)

theorem normalizeSlug_chain (s : List Nat) : NoAdjHyphens (normalizeSlug s) := by
  unfold normalizeSlug
  exact (chain_trimHyphens (chain_collapseAux false _)).take 60

theorem normalizeSlug_length_le (s : List Nat) :
    (normalizeSlug s).length ≤ 60 := by
  unfold normalizeSlug
  exact List.length_take_le 60 _

/-- Applying `normalizeSlug` to an already-normalized slug strips the trailing
hyphen that the 60-character truncation may have exposed, and does nothing
else. -/
theorem normalizeSlug_normalizeSlug (s : List Nat) :
    normalizeSlug (normalizeSlug s) = trimHyphens (normalizeSlug s) :=
  normalizeSlug_of_normal normalizeSlug_all (normalizeSlug_chain s)
    (normalizeSlug_length_le s)

theorem head?_dropWhile {p : Nat → Bool} {l : List Nat} {c : Nat}
    (h : (l.dropWhile p).head? = some c) : p c = false := by
  induction l with
  | nil => simp [List.dropWhile] at h
  | cons x rest ih =>
    rw [List.dropWhile_cons] at h
    by_cases hx : p x = true
    · rw [if_pos hx] at h; exact ih h
    · rw [if_neg hx, List.head?_cons, Option.some_inj] at h
      subst h
      exact Bool.eq_false_iff.mpr hx

theorem prefix_head? {l₁ l₂ : List Nat} (h : l₁ <+: l₂) {c : Nat}
    (hc : l₁.head? = some c) : l₂.head? = some c := by
  obtain ⟨t, rfl⟩ := h
  cases l₁ with
  | nil => simp at hc
  | cons x rest => simpa using hc

theorem trimHyphens_eq_self {t : List Nat} (hh : ∀ c, t.head? = some c → c ≠ 45)
    (hl : ∀ c, t.getLast? = some c → c ≠ 45) : trimHyphens t = t := by
  unfold trimHyphens
  have h1 : t.dropWhile (fun c => c = 45) = t := by
    cases t with
    | nil => rfl
    | cons x rest =>
      rw [List.dropWhile_cons, if_neg]
      simp only [decide_eq_true_eq]
      exact hh x rfl
  rw [h1]
  have h2 : t.reverse.dropWhile (fun c => c = 45) = t.reverse := by
    cases hrev : t.reverse with
    | nil => rfl
    | cons x rest =>
      rw [List.dropWhile_cons, if_neg]
      simp only [decide_eq_true_eq]
      have : t.getLast? = some x := by
        rw [← List.head?_reverse, hrev, List.head?_cons]
      exact hl x this
  rw [h2, List.reverse_reverse]

theorem trimHyphens_prefix_dropWhile (l : List Nat) :
    trimHyphens l <+: l.dropWhile (fun c => c = 45) := by
  unfold trimHyphens
  have h1 :
      (l.dropWhile (fun c => c = 45)).reverse.dropWhile (fun c => c = 45) <:+
        (l.dropWhile (fun c => c = 45)).reverse :=
    List.dropWhile_suffix _
  have h2 := List.reverse_prefix.mpr h1
  rwa [List.reverse_reverse] at h2

theorem normalizeSlug_head_ne_hyphen {s : List Nat} {c : Nat}
    (h : (normalizeSlug s).head? = some c) : c ≠ 45 := by
  unfold normalizeSlug at h
  rw [List.head?_take, if_neg (by omega)] at h
  have h2 := prefix_head? (trimHyphens_prefix_dropWhile _) h
  have h3 := head?_dropWhile h2
  simpa using h3

/-- Whenever the normalized slug does not end in a hyphen, `normalizeSlug` is
idempotent at that input. -/
theorem normalizeSlug_idem_of_no_trailing_hyphen {s : List Nat}
    (h : ∀ c, (normalizeSlug s).getLast? = some c → c ≠ 45) :
    normalizeSlug (normalizeSlug s) = normalizeSlug s := by
  rw [normalizeSlug_normalizeSlug]
  exact trimHyphens_eq_self (fun c hc => normalizeSlug_head_ne_hyphen hc) h

/-- C3 counterexample: `normalizeSlug` is not idempotent.  On 59 `a`s followed
by `-b`, the 60-character truncation leaves a trailing hyphen, which a second
normalization strips, so the two normalizations differ. -/
theorem c3_counterexample :
    normalizeSlug (normalizeSlug slugCexInput) ≠ normalizeSlug slugCexInput ∧
      normalizeSlug slugCexInput = List.replicate 59 97 ++ [45] ∧
      normalizeSlug (normalizeSlug slugCexInput) = List.replicate 59 97 := by
  refine ⟨?_, by decide, by decide⟩
  decide

/-- C3 (amended): re-normalizing a normalized slug at most strips the trailing
hyphen that the 60-character truncation can leave —
`normalizeSlug (normalizeSlug s) = trimHyphens (normalizeSlug s)` — and in
particular `normalizeSlug` is idempotent at every input whose normalized form
does not end in a hyphen. -/
theorem c3_theorem (s : List Nat) :
    normalizeSlug (normalizeSlug s) = trimHyphens (normalizeSlug s) ∧
      ((∀ c, (normalizeSlug s).getLast? = some c → c ≠ 45) →
        normalizeSlug (normalizeSlug s) = normalizeSlug s) :=
  ⟨normalizeSlug_normalizeSlug s, fun h => normalizeSlug_idem_of_no_trailing_hyphen h⟩

/-- C3 witness: the amended idempotence instantiated at the slug `abc`. -/
theorem c3_witness :
    normalizeSlug (normalizeSlug [97, 98, 99]) = normalizeSlug [97, 98, 99] :=
  (c3_theorem [97, 98, 99]).2 (by decide)

/-- C5 counterexample: a whitespace-only slug input refutes the claim's table.
The raw input is the single space, which is nonempty, and its normalization is
empty (length 0 < 3), so the claimed table yields `invalid`; the handler's
first guard tests the trimmed input and yields `idle` instead. -/
theorem c5_counterexample :
    checkSlugFinal [32] (.qRows false) = .idle ∧
      claimSlugTable [32] (.qRows false) = .invalid ∧
      ([32] : List Nat) ≠ [] ∧ SlugStatus.idle ≠ .invalid := by
  refine ⟨by decide, by decide, by decide, by decide⟩

/-- C5 (amended): the slug-availability classification matches the claim's
table once its first rule reads "input empty after trimming whitespace": such
input yields `idle`; otherwise a normalization shorter than 3 yields `invalid`
regardless of raw length; otherwise the run emits `checking` while the query
is in flight and then `available` on success-without-row or on query failure
(fail-open), and `taken` on success-with-row. -/
theorem c5_theorem (raw : List Nat) (q : QueryOutcome) :
    checkSlugFinal raw q = specSlugTableAmended raw q ∧
      (trimString raw = [] → checkSlugEmissions raw q = [.idle]) ∧
      (trimString raw ≠ [] → (normalizeSlug raw).length < 3 →
        checkSlugEmissions raw q = [.invalid]) ∧
      (trimString raw ≠ [] → ¬(normalizeSlug raw).length < 3 →
        checkSlugEmissions raw q = [.checking, resolvedStatus q]) := by
  have hiff : (normalizeSlug raw = [] ∨ (normalizeSlug raw).length < 3) ↔
      (normalizeSlug raw).length < 3 := by
    constructor
    · rintro (he | hl)
      · simp [he]
      · exact hl
    · exact Or.inr
  refine ⟨?_, ?_, ?_, ?_⟩
  · unfold checkSlugFinal specSlugTableAmended
    by_cases h1 : trimString raw = []
    · simp [h1]
    · by_cases h2 : (normalizeSlug raw).length < 3
      · rw [if_neg h1, if_neg h1, if_pos (hiff.mpr h2), if_pos h2]
      · rw [if_neg h1, if_neg h1, if_neg (fun hc => h2 (hiff.mp hc)), if_neg h2]
  · intro h1; unfold checkSlugEmissions; rw [if_pos h1]
  · intro h1 h2; unfold checkSlugEmissions
    rw [if_neg h1, if_pos (hiff.mpr h2)]
  · intro h1 h2; unfold checkSlugEmissions
    rw [if_neg h1, if_neg (fun hc => h2 (hiff.mp hc))]

/-- C5 witness: the amended table instantiated at the slug `abc` with a query
that finds a row: the run emits `checking` then `taken`, and the final status
agrees with the amended table. -/
theorem c5_witness :
    checkSlugEmissions [97, 98, 99] (.qRows true) = [.checking, .taken] ∧
      checkSlugFinal [97, 98, 99] (.qRows true)
        = specSlugTableAmended [97, 98, 99] (.qRows true) := by
  have h := c5_theorem [97, 98, 99] (.qRows true)
  exact ⟨h.2.2.2 (by decide) (by decide), h.1⟩

/-- C6: staleness discard.  For two slug checks issued in order A (run 0) then
B (run 1) whose queries both get issued, if B resolves before A the displayed
status is B's query result: issuing B runs A's effect cleanup, which sets A's
`cancelled` flag, so A's late resolution writes nothing. -/
theorem c6_theorem (runs : Nat → CheckRun)
    (h0 : passesGuards (runs 0).raw = true)
    (h1 : passesGuards (runs 1).raw = true) :
    (slugSimRun runs [.issue 0, .issue 1, .resolve 1, .resolve 0]).displayed
      = resolvedStatus (runs 1).outcome := by
  simp [slugSimRun, slugSimStep, slugSimInit, List.foldl, h0, h1, List.contains]

/-- C6 witness: the staleness result instantiated at two concrete runs, where
the superseded run 0 would have reported `taken` and the final run 1 reports
`available`. -/
theorem c6_witness :
    (slugSimRun staleRuns [.issue 0, .issue 1, .resolve 1, .resolve 0]).displayed
      = resolvedStatus (staleRuns 1).outcome :=
  c6_theorem staleRuns (by decide) (by decide)

theorem wizardA_invariant {s : WizardState} (h : ReachableA s) :
    (1 ≤ s.step ∧ s.step ≤ 3) ∧ (2 ≤ s.step → s.uid.isSome = true) ∧
      (s.step = 3 → s.profileSaved = true) := by
  induction h with
  | refl => exact ⟨⟨by decide, by decide⟩, fun h2 => absurd h2 (by decide),
      fun h3 => absurd h3 (by decide)⟩
  | @tail b c hab hbc ih =>
    cases hbc with
    | edit email password fullName shareSlug homeCity st => exact ih
    | createAccountOk u h1 hnext =>
      exact ⟨⟨show (1 : Nat) ≤ 2 by omega, show (2 : Nat) ≤ 3 by omega⟩,
        fun _ => rfl, fun h3 => absurd (show (2 : Nat) = 3 from h3) (by omega)⟩
    | createAccountFail h1 hnext => exact ih
    | saveProfileOk h2 huid hnext =>
      exact ⟨⟨show (1 : Nat) ≤ 3 by omega, show (3 : Nat) ≤ 3 by omega⟩,
        fun _ => huid, fun _ => rfl⟩
    | saveProfileFail h2 => exact ih
    | back hne =>
      obtain ⟨⟨hs1, hs3⟩, huid, hsaved⟩ := ih
      refine ⟨⟨show 1 ≤ b.step - 1 by omega, show b.step - 1 ≤ 3 by omega⟩,
        fun h2 => ?_, fun h3 => ?_⟩
      · have h2x : 2 ≤ b.step - 1 := h2
        exact huid (by omega)
      · have h3x : b.step - 1 = 3 := h3
        omega
    | finishAttempt h3 => exact ih

theorem wizEditState_reachable : ReachableA wizEditState :=
  Relation.ReflTransGen.tail Relation.ReflTransGen.refl
    (WizStepA.edit wizardInit [97] [98] [99] [97, 98, 99] [100] .available)

theorem wizStep2State_reachable : ReachableA wizStep2State :=
  Relation.ReflTransGen.tail wizEditState_reachable
    (WizStepA.createAccountOk wizEditState 7 rfl (by decide))

theorem wizStep3State_reachable : ReachableA wizStep3State :=
  Relation.ReflTransGen.tail wizStep2State_reachable
    (WizStepA.saveProfileOk wizStep2State rfl rfl (by decide))

/-- C7: in every reachable state of the signup wizard, the current step is 3
only if a session uid was obtained in step 1 and some step-2 profile upsert
returned without error. -/
theorem c7_theorem (s : WizardState) (h : ReachableA s) (h3 : s.step = 3) :
    s.uid.isSome = true ∧ s.profileSaved = true :=
  ⟨(wizardA_invariant h).2.1 (by omega), (wizardA_invariant h).2.2 h3⟩

/-- C7 witness: the invariant evaluated at the concrete reachable step-3 state
obtained by filling the forms, creating the account, and saving the profile. -/
theorem c7_witness :
    wizStep3State.uid.isSome = true ∧ wizStep3State.profileSaved = true :=
  c7_theorem wizStep3State wizStep3State_reachable rfl

/-- C8 counterexample: in the carousel revision (`app/signup/page.tsx`, Back
button guarded only by `loading || step === 1`), the reachable state reached
after a successful account creation sits at step 2 with `uid = some 7`, and
the Back transition to step 1 is nevertheless enabled. -/
theorem c8_counterexample :
    ReachableA wizStep2State ∧ wizStep2State.step = 2 ∧
      wizStep2State.uid = some 7 ∧
      WizStepA wizStep2State { wizStep2State with step := 1 } :=
  ⟨wizStep2State_reachable, rfl, rfl, WizStepA.back wizStep2State (by decide)⟩

/-- C8 (amended): in the `part_000` revision, whose Back button goes through
`handleBack` and `canGoBackToPrevStep`, every backward transition from step 2
to step 1 requires that no account has been created (`uid = null`). -/
theorem c8_theorem (s t : WizardState) (h : WizStepB s t) (h2 : s.step = 2)
    (h1 : t.step = 1) : s.uid = none := by
  cases h with
  | edit email password fullName shareSlug homeCity st =>
    have hx : s.step = 1 := h1
    omega
  | createAccountOk u ha hb =>
    omega
  | createAccountFail ha hb =>
    have hx : s.step = 1 := h1
    omega
  | saveProfileOk ha hb hc =>
    have hx : (3 : Nat) = 1 := h1
    omega
  | saveProfileFail ha =>
    have hx : s.step = 1 := h1
    omega
  | backFrom3 ha =>
    omega
  | backFrom2 ha hb =>
    exact hb
  | finishAttempt ha =>
    have hx : s.step = 1 := h1
    omega

/-- C8 witness: the guarded Back transition applied at a concrete step-2 state
with no account, confirming it reports `uid = none`. -/
theorem c8_witness : ({ wizardInit with step := 2 } : WizardState).uid = none :=
  c8_theorem { wizardInit with step := 2 }
    { { wizardInit with step := 2 } with step := 1 }
    (WizStepB.backFrom2 { wizardInit with step := 2 } rfl rfl) rfl rfl

theorem filter_ne_length_ge {l : List Nat} {key : Nat} (h : l.Nodup) :
    l.length - 1 ≤ (l.filter (fun k => k ≠ key)).length := by
  induction l with
  | nil => simp
  | cons x rest ih =>
    have hx : x ∉ rest := (List.nodup_cons.mp h).1
    have hr : rest.Nodup := (List.nodup_cons.mp h).2
    by_cases hxk : x = key
    · subst hxk
      have hall : rest.filter (fun k => k ≠ x) = rest :=
        List.filter_eq_self.mpr (fun a ha => by
          simp only [ne_eq, decide_eq_true_eq]
          exact fun hax => hx (hax ▸ ha))
      rw [List.filter_cons, if_neg (by simp), hall]
      simp
    · have hrec := ih hr
      rw [List.filter_cons, if_pos (by simp [hxk])]
      simp only [List.length_cons]
      omega

theorem removeIdxUpdate_bounds {idx cur nextLen : Int} (hc0 : 0 ≤ cur)
    (hn1 : 1 ≤ nextLen) :
    0 ≤ removeIdxUpdate idx cur nextLen ∧
      removeIdxUpdate idx cur nextLen ≤ nextLen - 1 := by
  unfold removeIdxUpdate
  split_ifs <;> omega

theorem draftInv_step (s : DraftListState) (op : DraftOp) (h : DraftInv s) :
    DraftInv (applyDraftOp s op) := by
  obtain ⟨h1, h2, h3, h4, h5, h6⟩ := h
  cases op with
  | add =>
    show DraftInv (addMemoryOp s)
    have hM : MAX_MEMORIES = 10 := rfl
    unfold addMemoryOp DraftInv
    dsimp only
    by_cases hfull : MAX_MEMORIES ≤ s.drafts.length
    · rw [if_pos hfull]
      refine ⟨h1, h2, by omega, ?_, h5, fun k hk => by have := h6 k hk; omega⟩
      show min (s.activeIdx + 1) ((MAX_MEMORIES : Int) - 1) ≤
        (s.drafts.length : Int) - 1
      have hlen : s.drafts.length = 10 := by omega
      rw [hlen, hM]
      push_cast
      omega
    · rw [if_neg hfull]
      refine ⟨by simp, ?_, by omega, ?_, ?_, ?_⟩
      · simp only [List.length_append, List.length_cons, List.length_nil]
        omega
      · show min (s.activeIdx + 1) ((MAX_MEMORIES : Int) - 1) ≤
          ((s.drafts ++ [s.nextKey]).length : Int) - 1
        simp only [List.length_append, List.length_cons, List.length_nil]
        push_cast
        omega
      · rw [List.nodup_append]
        refine ⟨h5, List.nodup_singleton _, fun a ha hb => ?_⟩
        have := h6 a ha
        have : a = s.nextKey := by simpa using hb
        omega
      · intro k hk
        rcases List.mem_append.mp hk with hk1 | hk1
        · have := h6 k hk1; omega
        · have : k = s.nextKey := by simpa using hk1
          omega
  | remove key =>
    show DraftInv (removeMemoryOp key s)
    unfold removeMemoryOp DraftInv
    by_cases hle : s.drafts.length ≤ 1
    · rw [if_pos hle]
      exact ⟨h1, h2, h3, h4, h5, h6⟩
    · rw [if_neg hle]
      dsimp only
      have hflen : (s.drafts.filter (fun k => k ≠ key)).length ≤ s.drafts.length :=
        List.length_filter_le _ _
      have hfge : s.drafts.length - 1 ≤
          (s.drafts.filter (fun k => k ≠ key)).length := filter_ne_length_ge h5
      have hnext1 : 1 ≤ (s.drafts.filter (fun k => k ≠ key)).length := by omega
      have hbounds := @removeIdxUpdate_bounds
        (match s.drafts.findIdx? (fun k => k = key) with
          | some i => (i : Int)
          | none => -1)
        s.activeIdx
        ((s.drafts.filter (fun k => k ≠ key)).length : Int)
        h3 (by exact_mod_cast hnext1)
      exact ⟨hnext1, by omega, hbounds.1, hbounds.2, h5.filter _,
        fun k hk => h6 k (List.mem_filter.mp hk).1⟩
  | goTo n =>
    show DraftInv (goToIdxOp n s)
    unfold goToIdxOp DraftInv
    dsimp only
    refine ⟨h1, h2, by omega, ?_, h5, h6⟩
    have hx : (1 : Int) ≤ (s.drafts.length : Int) := by exact_mod_cast h1
    omega

theorem draftInv_init : DraftInv draftInit := by
  unfold DraftInv draftInit MAX_MEMORIES
  refine ⟨by decide, by decide, by decide, by decide, by decide, by decide⟩

theorem draftInv_run (ops : List DraftOp) : DraftInv (runDraftOps ops) := by
  unfold runDraftOps
  have main : ∀ (l : List DraftOp) (s : DraftListState), DraftInv s →
      DraftInv (l.foldl applyDraftOp s) := by
    intro l
    induction l with
    | nil => exact fun s hs => hs
    | cons op rest ih =>
      intro s hs
      exact ih (applyDraftOp s op) (draftInv_step s op hs)
  exact main ops draftInit draftInv_init

/-- C10: after any sequence of `addMemory`, `removeMemory` and `goToIdx`
operations from the initial single-draft state, the draft list holds between
1 and `MAX_MEMORIES` drafts and the active index satisfies
`0 ≤ activeIdx ≤ drafts.length − 1`. -/
theorem c10_theorem (ops : List DraftOp) :
    1 ≤ (runDraftOps ops).drafts.length ∧
      (runDraftOps ops).drafts.length ≤ MAX_MEMORIES ∧
      0 ≤ (runDraftOps ops).activeIdx ∧
      (runDraftOps ops).activeIdx ≤ ((runDraftOps ops).drafts.length : Int) - 1 := by
  obtain ⟨h1, h2, h3, h4, _, _⟩ := draftInv_run ops
  exact ⟨h1, h2, h3, h4⟩

theorem chain_shape (o : DraftOutcomes) :
    chainOps o = (fullChainOps o).take (chainOps o).length ∧
      (chainOk o = true → chainOps o = fullChainOps o) := by
  rcases o with ⟨f, ip, pn, me, up, md⟩
  cases f <;> cases ip <;> cases pn <;> cases me <;> cases up <;> cases md <;>
    exact ⟨by decide, by decide⟩

theorem runDraftsFrom_ok {l : List DraftOutcomes}
    (h : ∀ o ∈ l, chainOk o = true) (i : Nat) :
    runDraftsFrom i l = (taggedChains i l, true) := by
  induction l generalizing i with
  | nil => rfl
  | cons o rest ih =>
    have ho : chainOk o = true := h o (List.mem_cons_self o rest)
    have hchain : chainOps o = fullChainOps o := (chain_shape o).2 ho
    unfold runDraftsFrom
    rw [show (runChain o).2 = true from ho, if_pos rfl]
    rw [ih (fun x hx => h x (List.mem_cons_of_mem o hx))]
    dsimp only
    rw [show (runChain o).1 = fullChainOps o from hchain]
    simp only [taggedChains]

theorem runDraftsFrom_fail :
    ∀ (l : List DraftOutcomes) (i k : Nat) (hk : k < l.length),
      chainOk (l.get ⟨k, hk⟩) = false →
      (∀ (j : Nat) (hj : j < k), chainOk (l.get ⟨j, by omega⟩) = true) →
      runDraftsFrom i l =
        (taggedChains i (l.take k) ++
          (chainOps (l.get ⟨k, hk⟩)).map (fun op => (i + k, op)), false) := by
  intro l
  induction l with
  | nil => intro i k hk; exact absurd hk (by simp)
  | cons o rest ih =>
    intro i k hk hfail hok
    cases k with
    | zero =>
      have ho : chainOk o = false := hfail
      unfold runDraftsFrom
      rw [show (runChain o).2 = false from ho, if_neg (by simp)]
      simp [taggedChains, chainOps]
    | succ k2 =>
      have h0 : chainOk o = true := hok 0 (Nat.succ_pos k2)
      unfold runDraftsFrom
      rw [show (runChain o).2 = true from h0, if_pos rfl]
      have hkr : k2 < rest.length := by simpa using hk
      have ihr := ih (i + 1) k2 hkr (by simpa using hfail)
        (fun j hj => by simpa using hok (j + 1) (by omega))
      rw [ihr]
      dsimp only
      rw [show (runChain o).1 = fullChainOps o from (chain_shape o).2 h0]
      simp [taggedChains, List.take_succ_cons, Nat.add_assoc, Nat.add_comm 1 k2]

/-- C1: for drafts passing the completion guard with one backend outcome per
draft, `handleFinish` issues the chains strictly sequentially in list order,
each chain being a prefix of place resolve-or-create, pin upsert, memory
insert, photo upload, media insert (the full chain when it succeeds); when
every chain succeeds the trace is exactly the N tagged chains in order, and
when the first failure is at draft k the trace is the complete chains of
drafts before k followed by draft k's partial chain — nothing from later
drafts, no compensating operation, and the failure is surfaced. -/
theorem c1_theorem (u : Nat) (ms : List FinishDraft) (outs : List DraftOutcomes)
    (h1 : 1 ≤ ms.length) (h2 : ms.length ≤ MAX_MEMORIES)
    (h3 : ms.all draftValid = true) (_hlen : outs.length = ms.length) :
    (∀ o, chainOps o = (fullChainOps o).take (chainOps o).length ∧
      (chainOk o = true → chainOps o = fullChainOps o)) ∧
    ((∀ o ∈ outs, chainOk o = true) →
      handleFinish (some u) ms outs = (taggedChains 0 outs, true)) ∧
    (∀ (k : Nat) (hk : k < outs.length), chainOk (outs.get ⟨k, hk⟩) = false →
      (∀ (j : Nat) (hj : j < k), chainOk (outs.get ⟨j, by omega⟩) = true) →
      handleFinish (some u) ms outs =
        (taggedChains 0 (outs.take k) ++
          (chainOps (outs.get ⟨k, hk⟩)).map (fun op => (k, op)), false)) := by
  have hcf : canFinish (some u) ms = true := by simp [canFinish, h1, h2, h3]
  have hguard : handleFinish (some u) ms outs = runDraftsFrom 0 outs := by
    simp [handleFinish, hcf]
  refine ⟨chain_shape, fun hall => ?_, fun k hk hf hok => ?_⟩
  · rw [hguard, runDraftsFrom_ok hall 0]
  · rw [hguard, runDraftsFrom_fail outs 0 k hk hf hok]
    simp

/-- C1 witness: two valid drafts.  With all calls succeeding the trace is the
two complete tagged chains; with draft 1's memory insert failing the trace is
draft 0's complete chain followed by draft 1's partial chain and the overall
result is failure. -/
theorem c1_witness :
    handleFinish (some 0) witnessDrafts witnessOutsOk
      = (taggedChains 0 witnessOutsOk, true) ∧
    handleFinish (some 0) witnessDrafts witnessOutsFail =
      (taggedChains 0 (witnessOutsFail.take 1) ++
        (chainOps (witnessOutsFail.get ⟨1, by decide⟩)).map
          (fun op => (1, op)), false) := by
  constructor
  · exact (c1_theorem 0 witnessDrafts witnessOutsOk (by decide) (by decide)
      (by decide) (by decide)).2.1 (by decide)
  · exact (c1_theorem 0 witnessDrafts witnessOutsFail (by decide) (by decide)
      (by decide) (by decide)).2.2 1 (by decide) (by decide)
      (fun j hj => by
        have hj0 : j = 0 := by omega
        subst hj0
        exact (show chainOk (witnessOutsFail.get ⟨0, by decide⟩) = true by decide))

theorem mem_mediaPathsOf {db : Database} {memoryId : Nat} {r : MediaRow}
    (hr : r ∈ db.media) (hm : r.memId = memoryId)
    (hne : r.path.isEmpty = false) : r.path ∈ mediaPathsOf db memoryId := by
  unfold mediaPathsOf
  rw [List.mem_filter]
  refine ⟨List.mem_map.mpr ⟨r, List.mem_filter.mpr ⟨hr, by simp [hm]⟩, rfl⟩,
    by simp [hne]⟩

/-- C9: `deleteMemory` removes, in order, the memory's media blobs from
storage, its media rows, and the memory row (given that rows carrying the
memory id belong to the profile user, as the unique primary key guarantees);
afterwards, when the place is supplied and the user has zero remaining
memories there, the user-to-place pin row is deleted as well, so a pin with
zero remaining memories disappears from the backing collection. -/
theorem c9_theorem (db : Database) (profileId memoryId pid : Nat)
    (hid : ∀ m ∈ db.memories, m.id = memoryId → m.userId = profileId) :
    (∀ r ∈ (deleteMemory profileId memoryId (some pid) db).1.media,
      r.memId ≠ memoryId) ∧
    (∀ r ∈ db.media, r.memId = memoryId → r.path.isEmpty = false →
      r.path ∉ (deleteMemory profileId memoryId (some pid) db).1.storage) ∧
    (∀ m ∈ (deleteMemory profileId memoryId (some pid) db).1.memories,
      m.id ≠ memoryId) ∧
    (memCount (deleteMemory profileId memoryId (some pid) db).1 profileId pid = 0 →
      ∀ r ∈ (deleteMemory profileId memoryId (some pid) db).1.userPlaces,
        ¬(r.userId = profileId ∧ r.placeId = pid)) ∧
    (deleteMemory profileId memoryId (some pid) db).2 =
      (if (mediaPathsOf db memoryId).isEmpty then []
       else [DeleteOp.removeBlobs (mediaPathsOf db memoryId)]) ++
      [DeleteOp.deleteMediaRows memoryId,
       DeleteOp.deleteMemoryRow memoryId profileId] ++
      (if memCount (deleteMemory profileId memoryId (some pid) db).1 profileId pid
          = 0
       then [DeleteOp.deletePinRow profileId pid] else []) := by
  have hmedia : ∀ r ∈ db.media.filter (fun r => decide (¬r.memId = memoryId)),
      r.memId ≠ memoryId := by
    intro r hr
    have hpred := (List.mem_filter.mp hr).2
    simp only [decide_eq_true_eq] at hpred
    exact hpred
  have hmems : ∀ m ∈ db.memories.filter
      (fun m => decide (¬(m.id = memoryId ∧ m.userId = profileId))),
      m.id ≠ memoryId := by
    intro m hm hmid
    have hpred := (List.mem_filter.mp hm).2
    have hmem := (List.mem_filter.mp hm).1
    simp only [decide_eq_true_eq] at hpred
    exact hpred ⟨hmid, hid m hmem hmid⟩
  have hpins : ∀ r ∈ db.userPlaces.filter
      (fun r => decide (¬(r.userId = profileId ∧ r.placeId = pid))),
      ¬(r.userId = profileId ∧ r.placeId = pid) := by
    intro r hr
    have hpred := (List.mem_filter.mp hr).2
    simp only [decide_eq_true_eq] at hpred
    exact hpred
  unfold deleteMemory
  by_cases hp : (mediaPathsOf db memoryId).isEmpty = true
  · have hempty : mediaPathsOf db memoryId = [] := by
      rwa [List.isEmpty_iff] at hp
    simp only [hp, if_true]
    split_ifs with h1 h2
    all_goals dsimp only
    · refine ⟨hmedia, ?_, hmems, fun _ => hpins, rfl⟩
      intro r hr hm hne _
      have hin := mem_mediaPathsOf hr hm hne
      rw [hempty] at hin
      exact absurd hin (List.not_mem_nil _)
    · unfold memCount at h1 h2
      dsimp only at h1 h2
      exact absurd h1 h2
    · refine ⟨hmedia, ?_, hmems, fun hc => absurd hc h1, by simp⟩
      intro r hr hm hne _
      have hin := mem_mediaPathsOf hr hm hne
      rw [hempty] at hin
      exact absurd hin (List.not_mem_nil _)
  · have hp2 : (mediaPathsOf db memoryId).isEmpty = false := by
      rwa [Bool.not_eq_true] at hp
    simp only [hp2, Bool.false_eq_true, if_false]
    split_ifs with h1 h2
    all_goals dsimp only
    · refine ⟨hmedia, ?_, hmems, fun _ => hpins, rfl⟩
      intro r hr hm hne hmem
      have hin := mem_mediaPathsOf hr hm hne
      have hpred := (List.mem_filter.mp hmem).2
      simp only [decide_eq_true_eq] at hpred
      exact hpred hin
    · unfold memCount at h1 h2
      dsimp only at h1 h2
      exact absurd h1 h2
    · refine ⟨hmedia, ?_, hmems, fun hc => absurd hc h1, by simp⟩
      intro r hr hm hne hmem
      have hin := mem_mediaPathsOf hr hm hne
      have hpred := (List.mem_filter.mp hmem).2
      simp only [decide_eq_true_eq] at hpred
      exact hpred hin

/-- C9 witness: the cascade evaluated on a database holding one memory with
one media blob and its pin: everything including the pin row is removed, and
the four destructive calls are issued in order. -/
theorem c9_witness :
    (∀ r ∈ (deleteMemory 1 5 (some 9) witnessDb).1.media, r.memId ≠ 5) ∧
      (deleteMemory 1 5 (some 9) witnessDb).1.storage = [] ∧
      (deleteMemory 1 5 (some 9) witnessDb).1.memories = [] ∧
      (deleteMemory 1 5 (some 9) witnessDb).1.userPlaces = [] ∧
      (deleteMemory 1 5 (some 9) witnessDb).2 =
        [DeleteOp.removeBlobs [[112]], DeleteOp.deleteMediaRows 5,
         DeleteOp.deleteMemoryRow 5 1, DeleteOp.deletePinRow 1 9] := by
  have h := c9_theorem witnessDb 1 5 9 (by decide)
  exact ⟨h.1, by decide, by decide, by decide, by decide⟩

theorem mapGet_mapSet_self (r : MarkerMap) (k : Nat) (v : Marker) :
    mapGet (mapSet r k v) k = some v := by
  induction r with
  | nil => simp [mapSet, mapGet]
  | cons e rest ih =>
    by_cases he : e.1 = k
    · simp [mapSet, he, mapGet]
    · simp [mapSet, he, mapGet, ih]

theorem mapGet_mapSet_ne (r : MarkerMap) {k k2 : Nat} (v : Marker)
    (h : k2 ≠ k) : mapGet (mapSet r k v) k2 = mapGet r k2 := by
  induction r with
  | nil =>
    simp only [mapSet, mapGet]
    rw [if_neg (fun hc => h hc.symm)]
  | cons e rest ih =>
    by_cases he : e.1 = k
    · rw [show mapSet (e :: rest) k v = (k, v) :: rest from by simp [mapSet, he]]
      rw [show mapGet ((k, v) :: rest) k2 = mapGet rest k2 from by
        simp [mapGet, Ne.symm h]]
      rw [show mapGet (e :: rest) k2 = mapGet rest k2 from by
        simp [mapGet, he ▸ Ne.symm h]]
    · rw [show mapSet (e :: rest) k v = e :: mapSet rest k v from by
        simp [mapSet, he]]
      by_cases he2 : e.1 = k2
      · simp [mapGet, he2]
      · simp [mapGet, he2, ih]

theorem mapGet_isSome_iff {r : MarkerMap} {k : Nat} :
    (mapGet r k).isSome = true ↔ k ∈ markerKeys r := by
  induction r with
  | nil => simp [mapGet, markerKeys]
  | cons e rest ih =>
    by_cases he : e.1 = k
    · simp [mapGet, he, markerKeys]
    · rw [show mapGet (e :: rest) k = mapGet rest k from by simp [mapGet, he]]
      rw [show markerKeys (e :: rest) = e.1 :: markerKeys rest from rfl]
      rw [List.mem_cons]
      constructor
      · exact fun hs => Or.inr (ih.mp hs)
      · rintro (rfl | hmem)
        · exact absurd rfl he
        · exact ih.mpr hmem

theorem markerKeys_mapSet_present {r : MarkerMap} {k : Nat} (v : Marker)
    (h : (mapGet r k).isSome = true) :
    markerKeys (mapSet r k v) = markerKeys r := by
  induction r with
  | nil => simp [mapGet] at h
  | cons e rest ih =>
    by_cases he : e.1 = k
    · simp [mapSet, he, markerKeys]
    · simp only [mapGet, he, if_neg, ite_false] at h
      simp [mapSet, he, markerKeys] at ih ⊢
      exact ih (by simpa [mapGet, he] using h)

theorem markerKeys_mapSet_absent {r : MarkerMap} {k : Nat} (v : Marker)
    (h : mapGet r k = none) :
    markerKeys (mapSet r k v) = markerKeys r ++ [k] := by
  induction r with
  | nil => simp [mapSet, markerKeys]
  | cons e rest ih =>
    by_cases he : e.1 = k
    · simp [mapGet, he] at h
    · have hrest : mapGet rest k = none := by simpa [mapGet, he] using h
      simp [mapSet, he, markerKeys] at ih ⊢
      exact ih hrest

theorem nodup_mapSet {r : MarkerMap} {k : Nat} (v : Marker)
    (h : (markerKeys r).Nodup) : (markerKeys (mapSet r k v)).Nodup := by
  by_cases hk : (mapGet r k).isSome = true
  · rwa [markerKeys_mapSet_present v hk]
  · have hnone : mapGet r k = none := by
      cases hg : mapGet r k
      · rfl
      · exact absurd (by simp [hg]) hk
    rw [markerKeys_mapSet_absent v hnone]
    rw [List.nodup_append]
    refine ⟨h, List.nodup_singleton _, fun a ha hb => ?_⟩
    have hak : a = k := by simpa using hb
    subst hak
    exact hk (mapGet_isSome_iff.mpr ha)

theorem mapGet_entry {r : MarkerMap} (h : (markerKeys r).Nodup)
    {e : Nat × Marker} (he : e ∈ r) : mapGet r e.1 = some e.2 := by
  induction r with
  | nil => simp at he
  | cons x rest ih =>
    rcases List.mem_cons.mp he with rfl | hrest
    · simp [mapGet]
    · have hx : x.1 ≠ e.1 := by
        intro hcon
        have : x.1 ∈ markerKeys rest := by
          rw [hcon]
          exact List.mem_map.mpr ⟨e, hrest, rfl⟩
        exact (List.nodup_cons.mp (by simpa [markerKeys] using h)).1 this
      have hr : (markerKeys rest).Nodup :=
        (List.nodup_cons.mp (by simpa [markerKeys] using h)).2
      simp [mapGet, hx, ih hr hrest]

theorem entry_isSome {r : MarkerMap} {e : Nat × Marker} (he : e ∈ r) :
    (mapGet r e.1).isSome = true := by
  induction r with
  | nil => simp at he
  | cons x rest ih =>
    rcases List.mem_cons.mp he with rfl | hrest
    · simp [mapGet]
    · by_cases hx : x.1 = e.1
      · simp [mapGet, hx]
      · simp [mapGet, hx, ih hrest]

theorem lastOcc_id {pins : List MapPin} {k : Nat} {p : MapPin}
    (h : lastOcc pins k = some p) : p.id = k := by
  induction pins with
  | nil => simp [lastOcc] at h
  | cons q rest ih =>
    unfold lastOcc at h
    cases hr : lastOcc rest k with
    | some x =>
      rw [hr] at h
      exact ih (hr.trans (by simpa using h))
    | none =>
      rw [hr] at h
      by_cases hq : q.id = k
      · rw [if_pos hq] at h
        cases h
        exact hq
      · rw [if_neg hq] at h
        cases h

theorem lastOcc_isSome_iff {pins : List MapPin} {k : Nat} :
    (lastOcc pins k).isSome = true ↔ k ∈ pins.map MapPin.id := by
  induction pins with
  | nil => simp [lastOcc]
  | cons q rest ih =>
    unfold lastOcc
    cases hr : lastOcc rest k with
    | some x =>
      simp only [Option.isSome_some, true_iff]
      have : k ∈ rest.map MapPin.id := ih.mp (by simp [hr])
      exact List.mem_map.mpr (by
        rcases List.mem_map.mp this with ⟨y, hy, hyk⟩
        exact ⟨y, List.mem_cons_of_mem q hy, hyk⟩)
    | none =>
      by_cases hq : q.id = k
      · simp [hq]
      · rw [if_neg hq]
        simp only [Option.isSome_none, Bool.false_eq_true, false_iff]
        intro hmem
        rcases List.mem_map.mp hmem with ⟨y, hy, hyk⟩
        rcases List.mem_cons.mp hy with rfl | hyr
        · exact hq hyk
        · have : k ∈ rest.map MapPin.id := List.mem_map.mpr ⟨y, hyr, hyk⟩
          have := ih.mpr this
          simp [hr] at this

theorem syncStepPass_nil (aid : Option Nat) (acc : MarkerMap × Nat) :
    syncStepPass aid [] acc = acc := rfl

theorem syncStepPass_cons (aid : Option Nat) (p : MapPin) (pins : List MapPin)
    (acc : MarkerMap × Nat) :
    syncStepPass aid (p :: pins) acc =
      syncStepPass aid pins
        (match mapGet acc.1 p.id with
         | some m =>
           (mapSet acc.1 p.id
             { m with
               lng := p.lng, lat := p.lat,
               active := decide (aid = some p.id) }, acc.2)
         | none =>
           (mapSet acc.1 p.id
             { token := acc.2, lng := p.lng, lat := p.lat,
               active := decide (aid = some p.id) }, acc.2 + 1)) := rfl

theorem syncStepPass_get_none {pins : List MapPin} {k : Nat}
    (h : lastOcc pins k = none) (aid : Option Nat) (r : MarkerMap) (c : Nat) :
    mapGet (syncStepPass aid pins (r, c)).1 k = mapGet r k := by
  induction pins generalizing r c with
  | nil => rfl
  | cons p rest ih =>
    have hsplit : lastOcc rest k = none ∧ p.id ≠ k := by
      unfold lastOcc at h
      cases hr : lastOcc rest k with
      | some x => rw [hr] at h; cases h
      | none =>
        rw [hr] at h
        by_cases hq : p.id = k
        · rw [if_pos hq] at h; cases h
        · exact ⟨rfl, hq⟩
    rw [syncStepPass_cons]
    cases hm : mapGet r p.id with
    | some m =>
      dsimp only
      rw [ih hsplit.1]
      exact mapGet_mapSet_ne r _ (fun hc => hsplit.2 hc.symm)
    | none =>
      dsimp only
      rw [ih hsplit.1]
      exact mapGet_mapSet_ne r _ (fun hc => hsplit.2 hc.symm)

theorem syncStepPass_get_some {pins : List MapPin} {k : Nat} {p : MapPin}
    (h : lastOcc pins k = some p) (aid : Option Nat) (r : MarkerMap) (c : Nat) :
    ∃ t, mapGet (syncStepPass aid pins (r, c)).1 k =
      some { token := t, lng := p.lng, lat := p.lat,
             active := decide (aid = some p.id) } := by
  induction pins generalizing r c with
  | nil => simp [lastOcc] at h
  | cons q rest ih =>
    unfold lastOcc at h
    rw [syncStepPass_cons]
    cases hr : lastOcc rest k with
    | some x =>
      rw [hr] at h
      dsimp only at h
      have hx : x = p := by injection h
      subst hx
      cases hm : mapGet r q.id with
      | some m =>
        dsimp only
        exact ih hr _ _
      | none =>
        dsimp only
        exact ih hr _ _
    | none =>
      rw [hr] at h
      dsimp only at h
      by_cases hq : q.id = k
      · rw [if_pos hq] at h
        have hpq : p = q := by
          injection h with h2
          exact h2.symm
        rw [hpq]
        cases hm : mapGet r q.id with
        | some m =>
          dsimp only
          rw [syncStepPass_get_none hr aid _ c]
          rw [hq, mapGet_mapSet_self]
          exact ⟨m.token, rfl⟩
        | none =>
          dsimp only
          rw [syncStepPass_get_none hr aid _ (c + 1)]
          rw [hq, mapGet_mapSet_self]
          exact ⟨c, rfl⟩
      · rw [if_neg hq] at h
        cases h

theorem syncStepPass_nodup {pins : List MapPin} {r : MarkerMap} {c : Nat}
    (h : (markerKeys r).Nodup) (aid : Option Nat) :
    (markerKeys (syncStepPass aid pins (r, c)).1).Nodup := by
  induction pins generalizing r c with
  | nil => exact h
  | cons p rest ih =>
    rw [syncStepPass_cons]
    cases hm : mapGet r p.id with
    | some m =>
      dsimp only
      exact ih (nodup_mapSet _ h)
    | none =>
      dsimp only
      exact ih (nodup_mapSet _ h)

theorem mapSet_eq_map {r : MarkerMap} {k : Nat} (v : Marker)
    (hnod : (markerKeys r).Nodup) (hk : (mapGet r k).isSome = true) :
    mapSet r k v = r.map (fun e => if e.1 = k then (k, v) else e) := by
  induction r with
  | nil => simp [mapGet] at hk
  | cons e rest ih =>
    by_cases he : e.1 = k
    · have hknotin : k ∉ markerKeys rest := by
        have hx :=
          (List.nodup_cons.mp (show (e.1 :: markerKeys rest).Nodup from hnod)).1
        rwa [he] at hx
      rw [show mapSet (e :: rest) k v = (k, v) :: rest from by simp [mapSet, he]]
      rw [List.map_cons, if_pos he]
      congr 1
      have hid : ∀ x ∈ rest, (if x.1 = k then (k, v) else x) = x := by
        intro x hx
        rw [if_neg]
        intro hc
        exact hknotin (hc ▸ List.mem_map.mpr ⟨x, hx, rfl⟩)
      rw [List.map_congr_left hid]
      simp
    · rw [show mapSet (e :: rest) k v = e :: mapSet rest k v from by
        simp [mapSet, he]]
      rw [List.map_cons, if_neg he]
      congr 1
      exact ih
        (List.nodup_cons.mp (show (e.1 :: markerKeys rest).Nodup from hnod)).2
        (by simpa [mapGet, he] using hk)

theorem markerKeys_map {r : MarkerMap} {f : Nat × Marker → Nat × Marker}
    (hf : ∀ e, (f e).1 = e.1) : markerKeys (r.map f) = markerKeys r := by
  unfold markerKeys
  rw [List.map_map]
  exact List.map_congr_left (fun e _ => hf e)

theorem mapGet_map {r : MarkerMap} {f : Nat × Marker → Nat × Marker}
    (hf : ∀ e, (f e).1 = e.1) (k : Nat) :
    mapGet (r.map f) k = (mapGet r k).map (fun m => (f (k, m)).2) := by
  induction r with
  | nil => rfl
  | cons e rest ih =>
    rcases e with ⟨a, b⟩
    rw [List.map_cons]
    by_cases ha : a = k
    · subst ha
      rw [show mapGet (f (a, b) :: rest.map f) a = some (f (a, b)).2 from by
        simp [mapGet, hf (a, b)]]
      rw [show mapGet ((a, b) :: rest) a = some b from by simp [mapGet]]
      rfl
    · rw [show mapGet (f (a, b) :: rest.map f) k = mapGet (rest.map f) k from by
        simp [mapGet, hf (a, b), ha]]
      rw [show mapGet ((a, b) :: rest) k = mapGet rest k from by
        simp [mapGet, ha]]
      exact ih

theorem syncUpdate_fst (aid : Option Nat) (pins : List MapPin)
    (e : Nat × Marker) : (syncUpdate aid pins e).1 = e.1 := by
  unfold syncUpdate
  cases lastOcc pins e.1 <;> rfl

theorem syncUpdate_token (aid : Option Nat) (pins : List MapPin)
    (e : Nat × Marker) : (syncUpdate aid pins e).2.token = e.2.token := by
  unfold syncUpdate
  cases lastOcc pins e.1 <;> rfl

theorem syncStepPass_all_present {pins : List MapPin} {r : MarkerMap} {c : Nat}
    (hnod : (markerKeys r).Nodup)
    (hall : ∀ p ∈ pins, (mapGet r p.id).isSome = true) (aid : Option Nat) :
    syncStepPass aid pins (r, c) = (r.map (syncUpdate aid pins), c) := by
  induction pins generalizing r c with
  | nil =>
    rw [syncStepPass_nil]
    have hid : ∀ e ∈ r, syncUpdate aid [] e = e := fun e _ => rfl
    rw [List.map_congr_left hid]
    simp
  | cons p rest ih =>
    obtain ⟨m, hm⟩ :=
      Option.isSome_iff_exists.mp (hall p (List.mem_cons_self p rest))
    rw [syncStepPass_cons]
    rw [hm]
    dsimp only
    rw [mapSet_eq_map _ hnod (by simp [hm])]
    have hf1 : ∀ e : Nat × Marker,
        ((fun e => if e.1 = p.id then
          (p.id, { m with
                   lng := p.lng, lat := p.lat,
                   active := decide (aid = some p.id) }) else e) e).1 = e.1 := by
      intro e
      by_cases h : e.1 = p.id <;> simp [h]
    have hkeys := @markerKeys_map r _ hf1
    rw [ih (by rw [hkeys]; exact hnod)
      (fun q hq => by
        rw [mapGet_isSome_iff, hkeys, ← mapGet_isSome_iff]
        exact hall q (List.mem_cons_of_mem p hq))]
    congr 1
    rw [List.map_map]
    apply List.map_congr_left
    intro e he
    by_cases hep : e.1 = p.id
    · have hem : e.2 = m := by
        have h1 := mapGet_entry hnod he
        rw [hep, hm] at h1
        injection h1 with h2
        exact h2.symm
      simp only [Function.comp, hep, if_pos]
      unfold syncUpdate
      dsimp only
      cases hlast : lastOcc rest p.id with
      | some qq =>
        rw [show lastOcc (p :: rest) e.1 = some qq from by
          unfold lastOcc; rw [hep, hlast]]
        rw [hep, hem]
      | none =>
        rw [show lastOcc (p :: rest) e.1 = some p from by
          unfold lastOcc; rw [hep, hlast]; simp]
        rw [hep, hem]
    · simp only [Function.comp, if_neg hep]
      unfold syncUpdate
      cases hlast : lastOcc rest e.1 with
      | some qq =>
        rw [show lastOcc (p :: rest) e.1 = some qq from by
          unfold lastOcc; rw [hlast]]
      | none =>
        rw [show lastOcc (p :: rest) e.1 = none from by
          unfold lastOcc
          rw [hlast]
          dsimp only
          rw [if_neg (fun hc => hep hc.symm)]]

theorem mapGet_filter_ids {reg : MarkerMap} {ids : List Nat} {k : Nat}
    (hk : k ∉ ids) :
    mapGet (reg.filter (fun e => decide (e.1 ∈ ids))) k = none := by
  induction reg with
  | nil => rfl
  | cons e rest ih =>
    by_cases hp : e.1 ∈ ids
    · rw [show (e :: rest).filter (fun e => decide (e.1 ∈ ids)) =
          e :: rest.filter (fun e => decide (e.1 ∈ ids)) from by
        simp [List.filter_cons, hp]]
      have hek : e.1 ≠ k := fun hc => hk (hc ▸ hp)
      simp [mapGet, hek, ih]
    · rw [show (e :: rest).filter (fun e => decide (e.1 ∈ ids)) =
          rest.filter (fun e => decide (e.1 ∈ ids)) from by
        simp [List.filter_cons, hp]]
      exact ih

theorem filter_keys_nodup {reg : MarkerMap} (p : Nat × Marker → Bool)
    (h : (markerKeys reg).Nodup) : (markerKeys (reg.filter p)).Nodup := by
  have hsub : (markerKeys (reg.filter p)).Sublist (markerKeys reg) :=
    (List.filter_sublist reg).map Prod.fst
  exact h.sublist hsub

theorem syncPins_isSome_iff (pins : List MapPin) (aid : Option Nat)
    (reg : MarkerMap) (c : Nat) (k : Nat) :
    (mapGet (syncPins pins aid reg c).1 k).isSome = true ↔
      k ∈ pins.map MapPin.id := by
  unfold syncPins
  cases hlast : lastOcc pins k with
  | some p =>
    obtain ⟨t, ht⟩ := syncStepPass_get_some hlast aid
      (reg.filter (fun e => decide (e.1 ∈ pins.map MapPin.id))) c
    rw [ht]
    simp only [Option.isSome_some, true_iff]
    exact lastOcc_isSome_iff.mp (by simp [hlast])
  | none =>
    have hk : k ∉ pins.map MapPin.id := by
      intro hmem
      have := lastOcc_isSome_iff.mpr hmem
      simp [hlast] at this
    rw [syncStepPass_get_none hlast aid _ c, mapGet_filter_ids hk]
    simp [hk]

theorem syncPins_nodup (pins : List MapPin) (aid : Option Nat)
    {reg : MarkerMap} (c : Nat) (h : (markerKeys reg).Nodup) :
    (markerKeys (syncPins pins aid reg c).1).Nodup := by
  unfold syncPins
  exact syncStepPass_nodup (filter_keys_nodup _ h) aid

theorem syncPins_keys_sub (pins : List MapPin) (aid : Option Nat)
    (reg : MarkerMap) (c : Nat) :
    ∀ e ∈ (syncPins pins aid reg c).1, e.1 ∈ pins.map MapPin.id :=
  fun e he => (syncPins_isSome_iff pins aid reg c e.1).mp (entry_isSome he)

theorem syncPins_get_some {pins : List MapPin} {k : Nat} {p : MapPin}
    (h : lastOcc pins k = some p) (aid : Option Nat) (reg : MarkerMap)
    (c : Nat) :
    ∃ t, mapGet (syncPins pins aid reg c).1 k =
      some { token := t, lng := p.lng, lat := p.lat,
             active := decide (aid = some p.id) } := by
  unfold syncPins
  exact syncStepPass_get_some h aid _ c

theorem syncPins_again (pins : List MapPin) (aid aid2 : Option Nat)
    {reg : MarkerMap} {c : Nat} (hnod : (markerKeys reg).Nodup) :
    syncPins pins aid2 (syncPins pins aid reg c).1 (syncPins pins aid reg c).2 =
      ((syncPins pins aid reg c).1.map (syncUpdate aid2 pins),
        (syncPins pins aid reg c).2) := by
  have hsub := syncPins_keys_sub pins aid reg c
  have hnod1 := syncPins_nodup pins aid c hnod
  have hfilter : (syncPins pins aid reg c).1.filter
      (fun e => decide (e.1 ∈ pins.map MapPin.id)) = (syncPins pins aid reg c).1 :=
    List.filter_eq_self.mpr (fun e he => by simp [hsub e he])
  show syncStepPass aid2 pins _ = _
  rw [hfilter]
  exact syncStepPass_all_present hnod1
    (fun p hp => (syncPins_isSome_iff pins aid reg c p.id).mpr
      (List.mem_map.mpr ⟨p, hp, rfl⟩)) aid2

theorem syncPins_idempotent (pins : List MapPin) (aid : Option Nat)
    {reg : MarkerMap} {c : Nat} (hnod : (markerKeys reg).Nodup) :
    syncPins pins aid (syncPins pins aid reg c).1 (syncPins pins aid reg c).2 =
      syncPins pins aid reg c := by
  rw [syncPins_again pins aid aid hnod]
  have hnod1 := syncPins_nodup pins aid c hnod
  have hpoint : ∀ e ∈ (syncPins pins aid reg c).1, syncUpdate aid pins e = e := by
    intro e he
    have hkid : e.1 ∈ pins.map MapPin.id := syncPins_keys_sub pins aid reg c e he
    obtain ⟨p, hp⟩ := Option.isSome_iff_exists.mp (lastOcc_isSome_iff.mpr hkid)
    obtain ⟨t, ht⟩ := syncPins_get_some hp aid reg c
    have hentry := mapGet_entry hnod1 he
    rw [hentry] at ht
    have he2 : e.2 =
        { token := t, lng := p.lng, lat := p.lat,
          active := decide (aid = some p.id) } := by
      injection ht
    unfold syncUpdate
    rw [hp]
    dsimp only
    rw [he2]
    dsimp only
    rw [← he2]
  have hmapeq : List.map (syncUpdate aid pins) (syncPins pins aid reg c).1
      = (syncPins pins aid reg c).1 := by
    rw [List.map_congr_left hpoint]
    simp
  rw [hmapeq]

theorem rebuildPass_nil (aid : Option Nat) (acc : MarkerMap × Nat) :
    rebuildPass aid [] acc = acc := rfl

theorem rebuildPass_cons (aid : Option Nat) (p : MapPin) (pins : List MapPin)
    (acc : MarkerMap × Nat) :
    rebuildPass aid (p :: pins) acc =
      rebuildPass aid pins
        (mapSet acc.1 p.id
          { token := acc.2, lng := p.lng, lat := p.lat,
            active := decide (aid = some p.id) }, acc.2 + 1) := rfl

theorem rebuildPass_get_none {pins : List MapPin} {k : Nat}
    (h : lastOcc pins k = none) (aid : Option Nat) (r : MarkerMap) (c : Nat) :
    mapGet (rebuildPass aid pins (r, c)).1 k = mapGet r k := by
  induction pins generalizing r c with
  | nil => rfl
  | cons p rest ih =>
    have hsplit : lastOcc rest k = none ∧ p.id ≠ k := by
      unfold lastOcc at h
      cases hr : lastOcc rest k with
      | some x => rw [hr] at h; cases h
      | none =>
        rw [hr] at h
        dsimp only at h
        by_cases hq : p.id = k
        · rw [if_pos hq] at h; cases h
        · exact ⟨rfl, hq⟩
    rw [rebuildPass_cons]
    rw [ih hsplit.1]
    exact mapGet_mapSet_ne r _ (fun hc => hsplit.2 hc.symm)

theorem rebuildPass_get_some {pins : List MapPin} {k : Nat} {p : MapPin}
    (h : lastOcc pins k = some p) (aid : Option Nat) (r : MarkerMap) (c : Nat) :
    ∃ t, mapGet (rebuildPass aid pins (r, c)).1 k =
      some { token := t, lng := p.lng, lat := p.lat,
             active := decide (aid = some p.id) } := by
  induction pins generalizing r c with
  | nil => simp [lastOcc] at h
  | cons q rest ih =>
    unfold lastOcc at h
    rw [rebuildPass_cons]
    cases hr : lastOcc rest k with
    | some x =>
      rw [hr] at h
      dsimp only at h
      have hx : x = p := by injection h
      subst hx
      exact ih hr _ _
    | none =>
      rw [hr] at h
      dsimp only at h
      by_cases hq : q.id = k
      · rw [if_pos hq] at h
        have hpq : p = q := by
          injection h with h2
          exact h2.symm
        rw [hpq]
        rw [rebuildPass_get_none hr aid _ (c + 1)]
        rw [hq, mapGet_mapSet_self]
        exact ⟨c, rfl⟩
      · rw [if_neg hq] at h
        cases h

theorem rebuildPass_nodup {pins : List MapPin} {r : MarkerMap} {c : Nat}
    (h : (markerKeys r).Nodup) (aid : Option Nat) :
    (markerKeys (rebuildPass aid pins (r, c)).1).Nodup := by
  induction pins generalizing r c with
  | nil => exact h
  | cons p rest ih =>
    rw [rebuildPass_cons]
    exact ih (nodup_mapSet _ h)

theorem rebuildPins_isSome_iff (pins : List MapPin) (aid : Option Nat)
    (reg : MarkerMap) (c : Nat) (k : Nat) :
    (mapGet (rebuildPins pins aid reg c).1 k).isSome = true ↔
      k ∈ pins.map MapPin.id := by
  unfold rebuildPins
  cases hlast : lastOcc pins k with
  | some p =>
    obtain ⟨t, ht⟩ := rebuildPass_get_some hlast aid [] c
    rw [ht]
    simp only [Option.isSome_some, true_iff]
    exact lastOcc_isSome_iff.mp (by simp [hlast])
  | none =>
    have hk : k ∉ pins.map MapPin.id := by
      intro hmem
      have hcon := lastOcc_isSome_iff.mpr hmem
      simp [hlast] at hcon
    rw [rebuildPass_get_none hlast aid [] c]
    simp [mapGet, hk]

theorem markerView_mapSet_congr {r r2 : MarkerMap} {k : Nat} {v v2 : Marker}
    (h : markerView r = markerView r2) (hlng : v.lng = v2.lng)
    (hlat : v.lat = v2.lat) (hact : v.active = v2.active) :
    markerView (mapSet r k v) = markerView (mapSet r2 k v2) := by
  induction r generalizing r2 with
  | nil =>
    have hr2 : r2 = [] := by
      cases r2 with
      | nil => rfl
      | cons x xs => simp [markerView] at h
    subst hr2
    simp [mapSet, markerView, hlng, hlat, hact]
  | cons e rest ih =>
    cases r2 with
    | nil => simp [markerView] at h
    | cons e2 rest2 =>
      simp only [markerView, List.map_cons, List.cons.injEq, Prod.mk.injEq] at h
      obtain ⟨⟨h1, h2, h3, h4⟩, ht⟩ := h
      by_cases hek : e.1 = k
      · rw [show mapSet (e :: rest) k v = (k, v) :: rest from by
          simp [mapSet, hek]]
        rw [show mapSet (e2 :: rest2) k v2 = (k, v2) :: rest2 from by
          simp [mapSet, h1 ▸ hek]]
        simp only [markerView, List.map_cons, List.cons.injEq, Prod.mk.injEq]
        exact ⟨⟨trivial, hlng, hlat, hact⟩, ht⟩
      · rw [show mapSet (e :: rest) k v = e :: mapSet rest k v from by
          simp [mapSet, hek]]
        rw [show mapSet (e2 :: rest2) k v2 = e2 :: mapSet rest2 k v2 from by
          simp [mapSet, h1 ▸ hek]]
        simp only [markerView, List.map_cons, List.cons.injEq, Prod.mk.injEq]
        exact ⟨⟨h1, h2, h3, h4⟩, ih ht⟩

theorem rebuildPass_view {pins : List MapPin} {r r2 : MarkerMap} {c c2 : Nat}
    (h : markerView r = markerView r2) (aid : Option Nat) :
    markerView (rebuildPass aid pins (r, c)).1 =
      markerView (rebuildPass aid pins (r2, c2)).1 := by
  induction pins generalizing r r2 c c2 with
  | nil => exact h
  | cons p rest ih =>
    rw [rebuildPass_cons, rebuildPass_cons]
    exact ih (markerView_mapSet_congr h rfl rfl rfl)

theorem rebuildPins_view_idem (pins : List MapPin) (aid : Option Nat)
    (reg : MarkerMap) (c : Nat) :
    markerView (rebuildPins pins aid (rebuildPins pins aid reg c).1
      (rebuildPins pins aid reg c).2).1 =
      markerView (rebuildPins pins aid reg c).1 := by
  unfold rebuildPins
  exact rebuildPass_view rfl aid

/-- C2: after any run of the marker-sync pass, in both the reconciliation
revision (`part_005`, `syncPins`) and the full-rebuild revision
(`MapboxMap.tsx`, `rebuildPins`), the registered markers are exactly the image
of the incoming pin set under id — a marker exists for an id iff a pin carries
it, and keys are never duplicated — and running the same pass again with the
same pin list and active id yields the same marker set (for the
reconciliation pass the registry and counter are literally unchanged; for the
rebuild the observable marker set is unchanged). -/
theorem c2_theorem (pins : List MapPin) (aid : Option Nat) (reg : MarkerMap)
    (c : Nat) (hnod : (markerKeys reg).Nodup) :
    (∀ k, (mapGet (syncPins pins aid reg c).1 k).isSome = true ↔
      k ∈ pins.map MapPin.id) ∧
    (markerKeys (syncPins pins aid reg c).1).Nodup ∧
    syncPins pins aid (syncPins pins aid reg c).1 (syncPins pins aid reg c).2 =
      syncPins pins aid reg c ∧
    (∀ k, (mapGet (rebuildPins pins aid reg c).1 k).isSome = true ↔
      k ∈ pins.map MapPin.id) ∧
    (markerKeys (rebuildPins pins aid reg c).1).Nodup ∧
    markerView (rebuildPins pins aid (rebuildPins pins aid reg c).1
      (rebuildPins pins aid reg c).2).1 =
      markerView (rebuildPins pins aid reg c).1 :=
  ⟨syncPins_isSome_iff pins aid reg c,
   syncPins_nodup pins aid c hnod,
   syncPins_idempotent pins aid hnod,
   rebuildPins_isSome_iff pins aid reg c,
   by unfold rebuildPins; exact rebuildPass_nodup (by simp [markerKeys]) aid,
   rebuildPins_view_idem pins aid reg c⟩

/-- C2 witness: the two-pin list with active id 1 from an empty registry: id 1
is registered, re-running the reconciliation is a no-op, and re-running the
rebuild preserves the marker view. -/
theorem c2_witness :
    (mapGet (syncPins cexPins (some 1) [] 0).1 1).isSome = true ∧
      syncPins cexPins (some 1) (syncPins cexPins (some 1) [] 0).1
        (syncPins cexPins (some 1) [] 0).2 = syncPins cexPins (some 1) [] 0 ∧
      markerView (rebuildPins cexPins (some 1)
        (rebuildPins cexPins (some 1) [] 0).1
        (rebuildPins cexPins (some 1) [] 0).2).1 =
        markerView (rebuildPins cexPins (some 1) [] 0).1 := by
  have h := c2_theorem cexPins (some 1) [] 0 (by decide)
  exact ⟨(h.1 1).mpr (by decide), h.2.2.1, h.2.2.2.2.2⟩

/-- C4 counterexample: in the full-rebuild revision (`MapboxMap.tsx`, cited by
the claim), changing only the active id (1 to 2, pin list unchanged) destroys
and recreates every marker — the registered marker objects (tokens) after the
second pass differ from those after the first; moreover selecting an id
absent from the pin list triggers no camera move at all, so the camera-move
count is not always one. -/
theorem c4_counterexample :
    tokenView (rebuildPins cexPins (some 2)
        (rebuildPins cexPins (some 1) [] 0).1
        (rebuildPins cexPins (some 1) [] 0).2).1 ≠
      tokenView (rebuildPins cexPins (some 1) [] 0).1 ∧
    flyEffect cexPins (some 99) true = [] := by
  exact ⟨by decide, by decide⟩

/-- C4 (amended): in the reconciliation revision (`part_005`), re-running the
sync pass after a change of only the active id destroys no marker and creates
none (the counter is unchanged and every id keeps its marker object), leaves
markers outside the old and new active ids completely untouched, applies the
active styling exactly to the new active id, and — when the new active id
occurs in the pin list and fly-to is enabled — triggers exactly one camera
move, to that pin. -/
theorem c4_theorem (pins : List MapPin) (aOld aNew : Option Nat)
    (reg : MarkerMap) (c : Nat) (hnod : (markerKeys reg).Nodup) (pNew : MapPin)
    (hfound : activePinOf pins aNew = some pNew) :
    (syncPins pins aNew (syncPins pins aOld reg c).1
        (syncPins pins aOld reg c).2).2 = (syncPins pins aOld reg c).2 ∧
    tokenView (syncPins pins aNew (syncPins pins aOld reg c).1
        (syncPins pins aOld reg c).2).1 =
      tokenView (syncPins pins aOld reg c).1 ∧
    (∀ k, aOld ≠ some k → aNew ≠ some k →
      mapGet (syncPins pins aNew (syncPins pins aOld reg c).1
        (syncPins pins aOld reg c).2).1 k =
        mapGet (syncPins pins aOld reg c).1 k) ∧
    (∀ k m, mapGet (syncPins pins aNew (syncPins pins aOld reg c).1
        (syncPins pins aOld reg c).2).1 k = some m →
      m.active = decide (aNew = some k)) ∧
    flyEffect pins aNew true = [(pNew.lng, pNew.lat)] := by
  have hagain := @syncPins_again pins aOld aNew reg c hnod
  refine ⟨?_, ?_, ?_, ?_, ?_⟩
  · rw [hagain]
  · rw [hagain]
    unfold tokenView
    dsimp only
    rw [List.map_map]
    exact List.map_congr_left (fun e _ => by
      simp [Function.comp, syncUpdate_fst, syncUpdate_token])
  · intro k hOld hNew
    rw [hagain]
    dsimp only
    rw [mapGet_map (syncUpdate_fst aNew pins) k]
    cases hget : mapGet (syncPins pins aOld reg c).1 k with
    | none => rfl
    | some m1 =>
      dsimp only [Option.map]
      unfold syncUpdate
      dsimp only
      cases hlast : lastOcc pins k with
      | none => rfl
      | some p =>
        obtain ⟨t, ht⟩ := syncPins_get_some hlast aOld reg c
        rw [hget] at ht
        injection ht with h2
        have hpid : p.id = k := lastOcc_id hlast
        rw [h2]
        dsimp only
        have hone : decide (aNew = some p.id) = false := by
          rw [hpid]; exact decide_eq_false hNew
        have htwo : decide (aOld = some p.id) = false := by
          rw [hpid]; exact decide_eq_false hOld
        rw [hone, htwo]
  · intro k m hm
    rw [hagain] at hm
    dsimp only at hm
    rw [mapGet_map (syncUpdate_fst aNew pins) k] at hm
    cases hget : mapGet (syncPins pins aOld reg c).1 k with
    | none => rw [hget] at hm; cases hm
    | some m1 =>
      rw [hget] at hm
      dsimp only [Option.map] at hm
      injection hm with hm2
      have hkid : k ∈ pins.map MapPin.id :=
        (syncPins_isSome_iff pins aOld reg c k).mp (by simp [hget])
      obtain ⟨p, hp⟩ := Option.isSome_iff_exists.mp (lastOcc_isSome_iff.mpr hkid)
      have hpid : p.id = k := lastOcc_id hp
      rw [← hm2]
      unfold syncUpdate
      dsimp only
      rw [hp]
      dsimp only
      rw [hpid]
  · simp [flyEffect, hfound]

/-- C4 witness: the amended property evaluated at the two-pin list, active id
changing from 1 to 2 on an empty starting registry: no marker created, marker
objects preserved, one camera move to pin 2's coordinates. -/
theorem c4_witness :
    (syncPins cexPins (some 2) (syncPins cexPins (some 1) [] 0).1
        (syncPins cexPins (some 1) [] 0).2).2 =
      (syncPins cexPins (some 1) [] 0).2 ∧
      tokenView (syncPins cexPins (some 2) (syncPins cexPins (some 1) [] 0).1
        (syncPins cexPins (some 1) [] 0).2).1 =
        tokenView (syncPins cexPins (some 1) [] 0).1 ∧
      flyEffect cexPins (some 2) true = [(30, 40)] := by
  have h := c4_theorem cexPins (some 1) (some 2) [] 0 (by decide)
    { id := 2, lng := 30, lat := 40 } (by decide)
  exact ⟨h.1, h.2.1, h.2.2.2.2⟩

end WorldMap
